import Mathlib

set_option maxRecDepth 8192

/-!
# Verification of the redzone-app state and response-engine core

This file is a shallow embedding of the core of
`src/redzone-app/src/app/page.tsx`: the entity schemas (Profile, School,
Outreach, chat messages), the derived-value computations (`computeFitScore`,
`profileCompletion`), the mutation operations (`addSchool`, `removeSchool`,
`logOutreach`, `sendToBot`, `importProfile`), and the rule-based response
engine, together with models of the JavaScript builtins the code relies on
(`parseFloat`, `Math.round`, `JSON.stringify`/`JSON.parse`).

Modelling conventions:
* JavaScript numbers are modelled as `ℚ` (every IEEE double is a rational;
  the GPA and completion arithmetic in this app stays well inside the range
  where double rounding is exact for the claims considered).
* `Date.now()` values are passed in explicitly as integer parameters.
* String operations (`trim`, `toLowerCase`) are modelled with Lean's
  ASCII-correct counterparts.
-/

/-! ## Data model (types from page.tsx lines 6-35) -/

structure Achievement where
  id : ℤ
  text : String
deriving DecidableEq, Repr

structure Profile where
  name : String
  email : String
  phone : String
  position : String
  height : String
  weight : String
  gpa : String
  testScores : String
  achievements : List Achievement
deriving DecidableEq, Repr

structure School where
  id : ℤ
  name : String
  division : String
  contact : String
  fitScore : ℤ
deriving DecidableEq, Repr

structure Outreach where
  id : ℤ
  schoolId : ℤ
  date : String
  message : String
deriving DecidableEq, Repr

/-- Chat message sender (source field `from: 'user' | 'bot'`; renamed because
`from` is reserved in Lean). -/
inductive Sender where
  | user
  | bot
deriving DecidableEq, Repr

/-- Source type `BotMessage`. -/
structure BotMessage where
  id : ℤ
  sender : Sender
  text : String
deriving DecidableEq, Repr

/-- `emptyProfile` from page.tsx lines 38-48. -/
def emptyProfile : Profile :=
  { name := "", email := "", phone := "", position := "", height := "",
    weight := "", gpa := "", testScores := "", achievements := [] }

/-! ## JavaScript number helpers

`Math.round(x)` on finite doubles is `⌊x + 1/2⌋` (round half toward +∞). -/

def jsRound (q : ℚ) : ℤ := ⌊q + 1 / 2⌋

/-! ## A model of the JavaScript `parseFloat` builtin

`parseFloat` (ECMAScript `parseFloat(string)`) skips leading whitespace, then
takes the longest prefix matching `StrDecimalLiteral`:
an optional sign followed by `Infinity`, or decimal digits with an optional
fractional part and an optional exponent part (the exponent marker is only
consumed when at least one exponent digit follows).  If no prefix matches the
result is NaN.  We return the parsed value as an exact rational together with
the unconsumed remainder, which lets us reason about trailing garbage. -/

/-- Decimal digit list to a natural number (most significant first). -/
def digitsToNat (l : List Char) : ℕ :=
  l.foldl (fun a c => 10 * a + (c.toNat - 48)) 0

/-- Split an optional leading sign: `'-'` gives `true`, `'+'` is consumed
without negating, anything else is left in place. -/
def signSplit (l : List Char) : Bool × List Char :=
  match l with
  | c :: t => if c = '-' then (true, t) else if c = '+' then (false, t) else (false, c :: t)
  | [] => (false, [])

/-- Split an optional fractional part: a leading `'.'` is consumed (even when
no digits follow, as in `"3."`), and the fraction digits are taken greedily. -/
def fracSplit (r : List Char) : List Char × List Char :=
  match r with
  | c :: t =>
    if c = '.' then (t.takeWhile Char.isDigit, t.dropWhile Char.isDigit)
    else ([], c :: t)
  | [] => ([], [])

/-- Apply a decimal exponent: `m * 10^mag` or `m / 10^mag`. -/
def applyExp (m : ℚ) (neg : Bool) (mag : ℕ) : ℚ :=
  if neg then m / 10 ^ mag else m * 10 ^ mag

/-- Optional exponent part after the mantissa.  The `'e'`/`'E'` (and a sign
after it) is only consumed when at least one digit follows, matching the
longest-valid-prefix rule of `parseFloat` (`"1e+"` parses as `1`). -/
def expSplit (r : List Char) : (Bool × ℕ) × List Char :=
  match r with
  | c :: t =>
    if c = 'e' ∨ c = 'E' then
      let (neg, t') := signSplit t
      let ed := t'.takeWhile Char.isDigit
      if ed.isEmpty then ((false, 0), c :: t)
      else ((neg, digitsToNat ed), t'.dropWhile Char.isDigit)
    else ((false, 0), c :: t)
  | [] => ((false, 0), [])

/-- The syntactic pieces of a parsed decimal literal, kept as naturals so that
concrete parses are decidable without rational arithmetic: integer-part value,
fraction-part value and digit count, exponent sign and magnitude. -/
structure DecTok where
  ipVal : ℕ
  fpVal : ℕ
  fpLen : ℕ
  eneg : Bool
  emag : ℕ
deriving DecidableEq, Repr

/-- The rational value a decimal-literal token denotes. -/
def DecTok.val (t : DecTok) : ℚ :=
  applyExp ((t.ipVal : ℚ) + (t.fpVal : ℚ) / 10 ^ t.fpLen) t.eneg t.emag

/-- Unsigned decimal literal: digits, optional fraction, optional exponent.
Fails when there is neither an integer digit nor a fraction digit. -/
def parseDec (l : List Char) : Option (DecTok × List Char) :=
  let ip := l.takeWhile Char.isDigit
  let r1 := l.dropWhile Char.isDigit
  let (fp, r2) := fracSplit r1
  if ip.isEmpty ∧ fp.isEmpty then none
  else
    let ((eneg, emag), r3) := expSplit r2
    some (⟨digitsToNat ip, digitsToNat fp, fp.length, eneg, emag⟩, r3)

/-- Result of a successful signed parse: `Infinity` or a finite literal. -/
inductive FloatTok where
  | inf (neg : Bool)
  | num (neg : Bool) (t : DecTok)
deriving DecidableEq, Repr

/-- Signed float literal (no leading whitespace handled here). -/
def parseSigned (l : List Char) : Option (FloatTok × List Char) :=
  let (neg, l') := signSplit l
  if "Infinity".toList.isPrefixOf l' then some (.inf neg, l'.drop 8)
  else
    match parseDec l' with
    | none => none
    | some (t, r) => some (.num neg t, r)

/-- The value `parseFloat` produces: NaN, ±Infinity, or a finite number. -/
inductive JSNum where
  | nan
  | inf (neg : Bool)
  | num (q : ℚ)
deriving DecidableEq

/-- Model of `parseFloat(s)`. -/
def jsParseFloat (s : String) : JSNum :=
  match parseSigned (s.toList.dropWhile Char.isWhitespace) with
  | none => .nan
  | some (.inf neg, _) => .inf neg
  | some (.num neg t, _) => .num (if neg then -t.val else t.val)

/-! ## `computeFitScore` (page.tsx lines 51-55)

```
function computeFitScore(gpa: string): number {
  const gpaNum = parseFloat(gpa);
  if (isNaN(gpaNum)) return 50;
  return Math.min(100, Math.max(0, Math.round(gpaNum / 4 * 100)));
}
```
On `±Infinity` the JS expression evaluates to `100` / `0` respectively
(`Math.round` is the identity on infinities and the min/max clamp them). -/

def computeFitScore (gpa : String) : ℤ :=
  match jsParseFloat gpa with
  | .nan => 50
  | .inf true => 0
  | .inf false => 100
  | .num q => min 100 (max 0 (jsRound (q / 4 * 100)))

/-! ## Profile completion (page.tsx lines 238-239)

```
const completedFields = [name, email, phone, position, height, weight, gpa,
  testScores].filter(Boolean).length;
const profileCompletion =
  Math.round(((completedFields + profile.achievements.length) / (8 + 1)) * 100);
```
A string is truthy exactly when it is non-empty. -/

def completedFields (p : Profile) : ℕ :=
  ([p.name, p.email, p.phone, p.position, p.height, p.weight, p.gpa,
    p.testScores].filter (fun s => s ≠ "")).length

def profileCompletion (p : Profile) : ℤ :=
  jsRound (((completedFields p : ℚ) + (p.achievements.length : ℚ)) / (8 + 1) * 100)

/-- The spec's clamp: `clamp(x, 0, 100)`. -/
def specClamp (x : ℚ) : ℚ := max 0 (min 100 x)

/-- JS `String.prototype.trim`: strip leading and trailing whitespace. -/
def jsTrim (s : String) : String :=
  String.mk (((s.toList.dropWhile Char.isWhitespace).reverse.dropWhile
    Char.isWhitespace).reverse)

/-- JS `String.prototype.toLowerCase` (ASCII range; all keyword matching in
the response engine is ASCII). -/
def jsToLower (s : String) : String := String.mk (s.toList.map Char.toLower)

/-! ## Application state and mutation operations

The component state relevant to the core: the profile, the schools list, the
outreach log, the chat log, and the bot name setting.  Each mutation below is
the source function with the `Date.now()` reads passed in explicitly. -/

structure AppState where
  profile : Profile
  schools : List School
  outreach : List Outreach
  botMessages : List BotMessage
  botName : String
deriving DecidableEq, Repr

/-- One `handleProfileChange(field, value)` call (page.tsx lines 160-162):
which field is replaced, and the new value. -/
inductive ProfileUpdate where
  | name (v : String)
  | email (v : String)
  | phone (v : String)
  | position (v : String)
  | height (v : String)
  | weight (v : String)
  | gpa (v : String)
  | testScores (v : String)
  | achievements (v : List Achievement)

/-- `{ ...prev, [field]: value }`: replaces one field, preserves the others. -/
def applyProfileUpdate (p : Profile) (u : ProfileUpdate) : Profile :=
  match u with
  | .name v => { p with name := v }
  | .email v => { p with email := v }
  | .phone v => { p with phone := v }
  | .position v => { p with position := v }
  | .height v => { p with height := v }
  | .weight v => { p with weight := v }
  | .gpa v => { p with gpa := v }
  | .testScores v => { p with testScores := v }
  | .achievements v => { p with achievements := v }

/-- `handleProfileChange` (page.tsx lines 160-162). -/
def handleProfileChange (u : ProfileUpdate) (s : AppState) : AppState :=
  { s with profile := applyProfileUpdate s.profile u }

/-- `addAchievement(text)` (page.tsx lines 165-172); `now` is `Date.now()`. -/
def addAchievement (now : ℤ) (text : String) (s : AppState) : AppState :=
  if jsTrim text = "" then s
  else { s with profile :=
    { s.profile with achievements := s.profile.achievements ++ [⟨now, text⟩] } }

/-- `removeAchievement(id)` (page.tsx lines 175-177). -/
def removeAchievement (id : ℤ) (s : AppState) : AppState :=
  { s with profile :=
    { s.profile with achievements := s.profile.achievements.filter (fun a => a.id ≠ id) } }

/-- `addSchool(name, division, contact)` (page.tsx lines 205-215); the fit
score is computed from the profile's GPA at call time. -/
def addSchool (now : ℤ) (name division contact : String) (s : AppState) : AppState :=
  if jsTrim name = "" then s
  else { s with schools := s.schools ++
    [{ id := now, name := name, division := division, contact := contact,
       fitScore := computeFitScore s.profile.gpa }] }

/-- `removeSchool(id)` (page.tsx lines 218-222): filters the school out and
cascades to the outreach entries with a matching `schoolId`.  Both list
updates happen in the same event turn (modelled as one state transition). -/
def removeSchool (id : ℤ) (s : AppState) : AppState :=
  { s with
    schools := s.schools.filter (fun sc => sc.id ≠ id),
    outreach := s.outreach.filter (fun o => o.schoolId ≠ id) }

/-- `new Date().toISOString().split('T')[0]`: everything before the first
`'T'` of the ISO timestamp, i.e. the calendar date. -/
def todayFrom (isoNow : String) : String :=
  String.mk (isoNow.toList.takeWhile (fun c => c ≠ 'T'))

/-- `logOutreach(schoolId, message)` (page.tsx lines 225-235); `now` is
`Date.now()` and `isoNow` is `new Date().toISOString()`. -/
def logOutreach (now : ℤ) (isoNow : String) (schoolId : ℤ) (message : String)
    (s : AppState) : AppState :=
  match s.schools.find? (fun sc => sc.id = schoolId) with
  | none => s
  | some school =>
    if jsTrim message = "" then s
    else { s with outreach := s.outreach ++
      [{ id := now, schoolId := school.id, date := todayFrom isoNow, message := message }] }

/-! ## Response engine (page.tsx lines 242-264) -/

/-- `String.prototype.includes` on character lists. -/
def containsSubList (l sub : List Char) : Bool :=
  match l with
  | [] => sub.isEmpty
  | c :: t => sub.isPrefixOf (c :: t) || containsSubList t sub

/-- `s.includes(sub)`. -/
def containsSub (s sub : String) : Bool := containsSubList s.toList sub.toList

def greetingReply (botName : String) : String :=
  "Hello! I\x27m " ++ botName ++ ". How can I assist with your recruiting journey today?"

def profileReply : String :=
  "Make sure your profile includes your position, height, weight, GPA, and test scores. College coaches look for complete information!"

def schoolReply : String :=
  "When building your target school list, consider a mix of reach, match, and safety schools across divisions."

def outreachReply : String :=
  "Consistent outreach is key: send introductory emails, follow up every couple weeks, and personalize each message for the coach."

def reelReply : String :=
  "Your highlight reel should showcase 20–25 of your best plays in the first 90 seconds. Use hudl or YouTube for hosting."

def fallbackReply : String :=
  "I\x27m sorry, I don\x27t have an answer for that just yet. Try asking about your profile, school list, outreach, or highlight reel."

/-- The reply computation inside `sendToBot`: the lower-cased input is run
through the ordered `if`/`else` keyword chain of page.tsx lines 247-261. -/
def respond (botName input : String) : String :=
  let lower := jsToLower input
  if containsSub lower "hello" || containsSub lower "hi" then greetingReply botName
  else if containsSub lower "profile" then profileReply
  else if containsSub lower "school" || containsSub lower "list" then schoolReply
  else if containsSub lower "outreach" then outreachReply
  else if containsSub lower "highlight" || containsSub lower "reel" then reelReply
  else fallbackReply

/-- Modelled from the spec: the response engine as an explicit ordered table
of (predicate, reply) rules evaluated first-match-wins over the lower-cased
input, used to state the refinement claim about `respond`. -/
def ruleTable (botName : String) : List ((String → Bool) × String) :=
  [ (fun l => containsSub l "hello" || containsSub l "hi", greetingReply botName),
    (fun l => containsSub l "profile", profileReply),
    (fun l => containsSub l "school" || containsSub l "list", schoolReply),
    (fun l => containsSub l "outreach", outreachReply),
    (fun l => containsSub l "highlight" || containsSub l "reel", reelReply) ]

/-- First-match-wins evaluation of a rule table. -/
def firstMatch (rules : List ((String → Bool) × String)) (l fallback : String) : String :=
  match rules with
  | [] => fallback
  | (p, r) :: rest => if p l then r else firstMatch rest l fallback

/-- Modelled from the spec: ordered-rule-table response function. -/
def respondTable (botName input : String) : String :=
  firstMatch (ruleTable botName) (jsToLower input) fallbackReply

/-- `sendToBot(userText)` (page.tsx lines 242-264).  `t1` and `t2` are the two
`Date.now()` reads (line 244 and line 262); the user message gets id `t1`,
the bot reply gets id `t2 + 1`.  Empty and whitespace-only input returns
before appending anything. -/
def sendToBot (t1 t2 : ℤ) (userText : String) (s : AppState) : AppState :=
  if jsTrim userText = "" then s
  else
    { s with botMessages := s.botMessages ++
      [ { id := t1, sender := .user, text := userText },
        { id := t2 + 1, sender := .bot, text := respond s.botName userText } ] }

/-! ## JSON model (for the export/import path)

`downloadProfile` (page.tsx lines 180-186) writes
`JSON.stringify(profile, null, 2)` into the downloaded file;
`importProfile` (lines 189-202) runs `JSON.parse` on the file content inside
`try`/`catch` and casts the result to `Profile`.  We model the JSON text
format: a stringifier specialized to the profile shape (exactly what
`JSON.stringify` emits for a `Profile` value, with 2-space indent) and a
general JSON parser. -/

def lbraceChar : Char := Char.ofNat 123

def rbraceChar : Char := Char.ofNat 125

/-- JSON abstract values (numbers as exact rationals). -/
inductive Json where
  | str (s : String)
  | num (q : ℚ)
  | bool (b : Bool)
  | null
  | arr (xs : List Json)
  | obj (fields : List (String × Json))

/-- Lowercase hex digit for `n < 16`. -/
def hexDigitChar (n : ℕ) : Char :=
  if n < 10 then Char.ofNat (48 + n) else Char.ofNat (87 + n)

/-- `JSON.stringify` string escaping of one character: `"` and `\` get a
backslash, the named control escapes are used where they exist, the remaining
control characters become `\u00XX`, everything else is emitted literally. -/
def escChar (c : Char) : List Char :=
  if c = '"' then ['\\', '"']
  else if c = '\\' then ['\\', '\\']
  else if c = Char.ofNat 8 then ['\\', 'b']
  else if c = Char.ofNat 9 then ['\\', 't']
  else if c = Char.ofNat 10 then ['\\', 'n']
  else if c = Char.ofNat 12 then ['\\', 'f']
  else if c = Char.ofNat 13 then ['\\', 'r']
  else if c.toNat < 32 then
    ['\\', 'u', '0', '0', hexDigitChar (c.toNat / 16), hexDigitChar (c.toNat % 16)]
  else [c]

def escapeChars (l : List Char) : List Char :=
  l.foldr (fun c acc => escChar c ++ acc) []

/-- A JSON string literal for `s`. -/
def quoteStr (s : String) : List Char := '"' :: (escapeChars s.toList ++ ['"'])

/-- Decimal digits of a natural number, most significant first (fueled so
the definition is structurally recursive; `n + 1` units always suffice). -/
def natDigitsAux : ℕ → ℕ → List Char
  | 0, _ => []
  | fuel + 1, n =>
    if n < 10 then [Char.ofNat (48 + n)]
    else natDigitsAux fuel (n / 10) ++ [Char.ofNat (48 + n % 10)]

def natDigits (n : ℕ) : List Char := natDigitsAux (n + 1) n

/-- How JS stringifies an integer-valued number. -/
def printInt (i : ℤ) : List Char :=
  if i < 0 then '-' :: natDigits i.natAbs else natDigits i.natAbs

/-- One `"key": value` object member as printed. -/
def memberChars (key : String) (vch : List Char) : List Char :=
  quoteStr key ++ ':' :: ' ' :: vch

/-- Second and later object members: each is a comma, the whitespace run up
to the next key (newline plus indent), and the member itself. -/
def membersTailChars : List (List Char × String × List Char) → List Char
  | [] => []
  | (ws, k, vch) :: ms => ',' :: ws ++ memberChars k vch ++ membersTailChars ms

/-- Second and later array elements: comma, whitespace run, element. -/
def elemsTailChars : List (List Char × List Char) → List Char
  | [] => []
  | (ws, ech) :: es => ',' :: ws ++ ech ++ elemsTailChars es

/-- One achievement object as `JSON.stringify` prints it at depth 2 (field
indent 6, closing-brace indent 4), without the item indentation itself. -/
def achObjChars (a : Achievement) : List Char :=
  lbraceChar :: '\n' :: "      ".toList ++ memberChars "id" (printInt a.id) ++
  membersTailChars [('\n' :: "      ".toList, "text", quoteStr a.text)] ++
  '\n' :: "    ".toList ++ [rbraceChar]

/-- The achievements array as printed at depth 1: `[]` when empty, otherwise
items at indent 4 separated by `",\n"` with the closing bracket at
indent 2. -/
def achievementsChars (l : List Achievement) : List Char :=
  match l with
  | [] => ['[', ']']
  | a :: as =>
    '[' :: '\n' :: "    ".toList ++ achObjChars a ++
    elemsTailChars (as.map (fun b => ('\n' :: "    ".toList, achObjChars b))) ++
    '\n' :: "  ".toList ++ [']']

/-- `JSON.stringify(p, null, 2)` for a profile value, character by
character: `{`, newline, the nine members at indent 2 separated by `",\n"`,
newline, `}`. -/
def stringifyProfileChars (p : Profile) : List Char :=
  lbraceChar :: '\n' :: "  ".toList ++ memberChars "name" (quoteStr p.name) ++
  membersTailChars
    [ ('\n' :: "  ".toList, "email", quoteStr p.email),
      ('\n' :: "  ".toList, "phone", quoteStr p.phone),
      ('\n' :: "  ".toList, "position", quoteStr p.position),
      ('\n' :: "  ".toList, "height", quoteStr p.height),
      ('\n' :: "  ".toList, "weight", quoteStr p.weight),
      ('\n' :: "  ".toList, "gpa", quoteStr p.gpa),
      ('\n' :: "  ".toList, "testScores", quoteStr p.testScores),
      ('\n' :: "  ".toList, "achievements", achievementsChars p.achievements) ] ++
  '\n' :: [rbraceChar]

/-- The file content `downloadProfile` exports (page.tsx lines 180-186): the
`data:` URL wraps `JSON.stringify(profile, null, 2)`, so this is what a
later import reads back. -/
def downloadProfile (p : Profile) : String := String.mk (stringifyProfileChars p)

/-! ### JSON parsing (a model of `JSON.parse`) -/

/-- JSON insignificant whitespace: space, tab, line feed, carriage return. -/
def wsChar (c : Char) : Bool :=
  c = ' ' || c = '\t' || c = '\n' || c = '\r'

def jsonWsDrop (l : List Char) : List Char := l.dropWhile wsChar

def hexVal (c : Char) : Option ℕ :=
  if '0' ≤ c ∧ c ≤ '9' then some (c.toNat - 48)
  else if 'a' ≤ c ∧ c ≤ 'f' then some (c.toNat - 87)
  else if 'A' ≤ c ∧ c ≤ 'F' then some (c.toNat - 55)
  else none

/-- Single-character escapes (`\uXXXX` is handled separately). -/
def escDecode (e : Char) : Option Char :=
  if e = '"' then some '"'
  else if e = '\\' then some '\\'
  else if e = '/' then some '/'
  else if e = 'b' then some (Char.ofNat 8)
  else if e = 'f' then some (Char.ofNat 12)
  else if e = 'n' then some (Char.ofNat 10)
  else if e = 'r' then some (Char.ofNat 13)
  else if e = 't' then some (Char.ofNat 9)
  else none

/-- JSON string body after the opening quote, up to and including the closing
quote.  Raw control characters are rejected as in `JSON.parse`; `\uXXXX`
surrogate pairs combine into one character, and a lone surrogate (which the
stringifier never emits) maps to U+FFFD because Lean characters are Unicode
scalar values while JS strings are UTF-16 code-unit sequences.  Fueled so the
definition is structurally recursive (one unit of fuel per produced
character suffices). -/
def parseStrBodyAux : ℕ → List Char → Option (List Char × List Char)
  | 0, _ => none
  | _ + 1, [] => none
  | fuel + 1, c :: t =>
    if c = '"' then some ([], t)
    else if c = '\\' then
      match t with
      | 'u' :: a :: b :: c1 :: d :: t1 =>
        match hexVal a, hexVal b, hexVal c1, hexVal d with
        | some ha, some hb, some hc, some hd =>
          let n := ((ha * 16 + hb) * 16 + hc) * 16 + hd
          if 55296 ≤ n ∧ n ≤ 56319 then
            match t1 with
            | '\\' :: 'u' :: a2 :: b2 :: c2 :: d2 :: t2 =>
              match hexVal a2, hexVal b2, hexVal c2, hexVal d2 with
              | some e1, some e2, some e3, some e4 =>
                let m := ((e1 * 16 + e2) * 16 + e3) * 16 + e4
                if 56320 ≤ m ∧ m ≤ 57343 then
                  (parseStrBodyAux fuel t2).map
                    (fun p => (Char.ofNat (65536 + (n - 55296) * 1024 + (m - 56320)) :: p.1, p.2))
                else (parseStrBodyAux fuel t1).map (fun p => (Char.ofNat 65533 :: p.1, p.2))
              | _, _, _, _ => (parseStrBodyAux fuel t1).map (fun p => (Char.ofNat 65533 :: p.1, p.2))
            | _ => (parseStrBodyAux fuel t1).map (fun p => (Char.ofNat 65533 :: p.1, p.2))
          else if 56320 ≤ n ∧ n ≤ 57343 then
            (parseStrBodyAux fuel t1).map (fun p => (Char.ofNat 65533 :: p.1, p.2))
          else (parseStrBodyAux fuel t1).map (fun p => (Char.ofNat n :: p.1, p.2))
        | _, _, _, _ => none
      | e :: t1 =>
        match escDecode e with
        | some ch => (parseStrBodyAux fuel t1).map (fun p => (ch :: p.1, p.2))
        | none => none
      | [] => none
    else if c.toNat < 32 then none
    else (parseStrBodyAux fuel t).map (fun p => (c :: p.1, p.2))

def parseStrBody (l : List Char) : Option (List Char × List Char) :=
  parseStrBodyAux (l.length + 1) l

/-- JSON exponent part after the `e`/`E` marker: optional sign, then at least
one digit (otherwise the whole number is malformed). -/
def jsonExpApply (m : ℚ) (t : List Char) : Option (ℚ × List Char) :=
  let (eneg, t') := signSplit t
  let ed := t'.takeWhile Char.isDigit
  if ed.isEmpty then none
  else some (applyExp m eneg (digitsToNat ed), t'.dropWhile Char.isDigit)

/-- Optional fraction part of a JSON number: `some digits` when a `'.'` is
present (empty digits mark the number as malformed), `none` otherwise. -/
def fracPart (r1 : List Char) : Option (List Char) × List Char :=
  match r1 with
  | c :: t =>
    if c = '.' then (some (t.takeWhile Char.isDigit), t.dropWhile Char.isDigit)
    else (none, c :: t)
  | [] => (none, [])

/-- Optional exponent part of a JSON number (applied to the mantissa). -/
def expTail (m : ℚ) (r2 : List Char) : Option (ℚ × List Char) :=
  match r2 with
  | c :: t =>
    if c = 'e' ∨ c = 'E' then jsonExpApply m t
    else some (m, c :: t)
  | [] => some (m, [])

def parseJsonUnsigned (neg : Bool) (l1 : List Char) : Option (ℚ × List Char) :=
  let ip := l1.takeWhile Char.isDigit
  if ip.isEmpty then none
  else
    let fr := fracPart (l1.dropWhile Char.isDigit)
    if fr.1 = some [] then none
    else
      let fp := fr.1.getD []
      let m : ℚ := (digitsToNat ip : ℚ) + (digitsToNat fp : ℚ) / 10 ^ fp.length
      expTail (if neg then -m else m) fr.2

/-- JSON number: optional `-`, digits, optional `.digits`, optional exponent.
(`JSON.parse` additionally rejects redundant leading zeros; here `"01"`
parses as `0` with remainder `"1"`, which every caller then rejects as
trailing garbage, so `jsonParse` as a whole agrees with `JSON.parse`.) -/
def parseJsonNumber (l : List Char) : Option (ℚ × List Char) :=
  match l with
  | c :: t => if c = '-' then parseJsonUnsigned true t else parseJsonUnsigned false (c :: t)
  | [] => none

mutual

/-- JSON value parser (fueled; one unit of fuel per nesting level and per
collection element amply suffices). -/
def parseVal : ℕ → List Char → Option (Json × List Char)
  | 0, _ => none
  | _ + 1, [] => none
  | fuel + 1, c :: t =>
    if c = '"' then
      match parseStrBody t with
      | some (s, r) => some (.str (String.mk s), r)
      | none => none
    else if c = lbraceChar then
      match parseMembers fuel (jsonWsDrop t) with
      | some (fs, r) => some (.obj fs, r)
      | none => none
    else if c = '[' then
      match parseElems fuel (jsonWsDrop t) with
      | some (xs, r) => some (.arr xs, r)
      | none => none
    else if c = 't' then
      match t with
      | 'r' :: 'u' :: 'e' :: r => some (.bool true, r)
      | _ => none
    else if c = 'f' then
      match t with
      | 'a' :: 'l' :: 's' :: 'e' :: r => some (.bool false, r)
      | _ => none
    else if c = 'n' then
      match t with
      | 'u' :: 'l' :: 'l' :: r => some (.null, r)
      | _ => none
    else
      match parseJsonNumber (c :: t) with
      | some (q, r) => some (.num q, r)
      | none => none

/-- One `"key": value` member. -/
def parseMember : ℕ → List Char → Option ((String × Json) × List Char)
  | 0, _ => none
  | fuel + 1, l =>
    match l with
    | '"' :: t =>
      match parseStrBody t with
      | some (k, r1) =>
        match jsonWsDrop r1 with
        | ':' :: r2 =>
          match parseVal fuel (jsonWsDrop r2) with
          | some (v, r3) => some ((String.mk k, v), r3)
          | none => none
        | _ => none
      | none => none
    | _ => none

/-- Object members after the opening brace (and whitespace): either the
closing brace, or a first member followed by `parseMembersAfter`. -/
def parseMembers : ℕ → List Char → Option (List (String × Json) × List Char)
  | 0, _ => none
  | fuel + 1, l =>
    match l with
    | [] => none
    | c :: t =>
      if c = rbraceChar then some ([], t)
      else
        match parseMember fuel (c :: t) with
        | some (kv, r) => parseMembersAfter fuel kv (jsonWsDrop r)
        | none => none

/-- Continuation after a parsed member: `}` closes, `,` demands another
member (no trailing comma). -/
def parseMembersAfter : ℕ → String × Json → List Char → Option (List (String × Json) × List Char)
  | 0, _, _ => none
  | fuel + 1, kv, l =>
    match l with
    | [] => none
    | c :: t =>
      if c = rbraceChar then some ([kv], t)
      else if c = ',' then
        match parseMember fuel (jsonWsDrop t) with
        | some (kv2, r) =>
          match parseMembersAfter fuel kv2 (jsonWsDrop r) with
          | some (fs, r2) => some (kv :: fs, r2)
          | none => none
        | none => none
      else none

/-- Array elements after the opening bracket (and whitespace). -/
def parseElems : ℕ → List Char → Option (List Json × List Char)
  | 0, _ => none
  | fuel + 1, l =>
    match l with
    | [] => none
    | c :: t =>
      if c = ']' then some ([], t)
      else
        match parseVal fuel (c :: t) with
        | some (v, r) => parseElemsAfter fuel v (jsonWsDrop r)
        | none => none

/-- Continuation after a parsed element: `]` closes, `,` demands another
element. -/
def parseElemsAfter : ℕ → Json → List Char → Option (List Json × List Char)
  | 0, _, _ => none
  | fuel + 1, v, l =>
    match l with
    | [] => none
    | c :: t =>
      if c = ']' then some ([v], t)
      else if c = ',' then
        match parseVal fuel (jsonWsDrop t) with
        | some (v2, r) =>
          match parseElemsAfter fuel v2 (jsonWsDrop r) with
          | some (vs, r2) => some (v :: vs, r2)
          | none => none
        | none => none
      else none

end

/-- Model of `JSON.parse(raw)`: `none` is a thrown `SyntaxError`. -/
def jsonParse (raw : String) : Option Json :=
  match parseVal (raw.toList.length + 1) (jsonWsDrop raw.toList) with
  | some (v, r) => if (jsonWsDrop r).isEmpty then some v else none
  | none => none

/-- The JSON value `JSON.parse` yields on a stringified achievement. -/
def achToJson (a : Achievement) : Json :=
  .obj [("id", .num (a.id : ℚ)), ("text", .str a.text)]

/-- The JSON value `JSON.parse` yields on a stringified profile. -/
def profileToJson (p : Profile) : Json :=
  .obj [("name", .str p.name), ("email", .str p.email), ("phone", .str p.phone),
        ("position", .str p.position), ("height", .str p.height), ("weight", .str p.weight),
        ("gpa", .str p.gpa), ("testScores", .str p.testScores),
        ("achievements", .arr (p.achievements.map achToJson))]

/-- JS object property lookup (with later duplicate keys overriding earlier
ones, as `JSON.parse` builds objects). -/
def jLookup (fields : List (String × Json)) (k : String) : Option Json :=
  fields.foldl (fun acc kv => if kv.1 = k then some kv.2 else acc) none

def asString : Json → Option String
  | .str s => some s
  | _ => none

def asInt : Json → Option ℤ
  | .num q => if q.den = 1 then some q.num else none
  | _ => none

/-- Reading an `Achievement` out of a parsed JSON value. -/
def decodeAch (j : Json) : Option Achievement :=
  match j with
  | .obj fs => do
    let i ← jLookup fs "id" >>= asInt
    let t ← jLookup fs "text" >>= asString
    pure ⟨i, t⟩
  | _ => none

/-- Reading a `Profile` out of a parsed JSON value.  This models the
unchecked `obj as Profile` cast of the source restricted to profile-shaped
values (on which it is the identity embedding). -/
def decodeProfile (j : Json) : Option Profile :=
  match j with
  | .obj fs => do
    let n ← jLookup fs "name" >>= asString
    let e ← jLookup fs "email" >>= asString
    let ph ← jLookup fs "phone" >>= asString
    let pos ← jLookup fs "position" >>= asString
    let h ← jLookup fs "height" >>= asString
    let w ← jLookup fs "weight" >>= asString
    let g ← jLookup fs "gpa" >>= asString
    let ts ← jLookup fs "testScores" >>= asString
    let aj ← jLookup fs "achievements"
    match aj with
    | .arr xs => do
      let achs ← xs.mapM decodeAch
      pure ⟨n, e, ph, pos, h, w, g, ts, achs⟩
    | _ => none
  | _ => none

/-- `importProfile` (page.tsx lines 189-202): `JSON.parse` inside
`try`/`catch`.  On a parse failure the catch branch shows the
`'Invalid profile JSON'` alert (the `Bool` component) and `setProfile` is
never reached.  On success the parsed object is stored (modelled through
`decodeProfile`; see its docstring for the unchecked-cast looseness). -/
def importProfile (raw : String) (s : AppState) : AppState × Bool :=
  match jsonParse raw with
  | none => (s, true)
  | some j => ({ s with profile := (decodeProfile j).getD s.profile }, false)

/-- The profile obtained by importing a raw payload. -/
def importedProfile (raw : String) : Option Profile :=
  (jsonParse raw).bind decodeProfile

/-! ## Concrete sample data used in counterexamples and witnesses -/

def fullProfile0 : Profile :=
  { name := "Alex", email := "alex@example.com", phone := "555-0100",
    position := "QB", height := "6-2", weight := "200", gpa := "3.8",
    testScores := "1200", achievements := [] }

def fullProfile1 : Profile :=
  { fullProfile0 with achievements := [⟨1, "Team captain"⟩] }

def fullProfile2 : Profile :=
  { fullProfile0 with achievements := [⟨1, "Team captain"⟩, ⟨2, "All-state"⟩] }

def sampleState : AppState :=
  { profile := fullProfile0,
    schools := [⟨10, "State U", "NCAA DI", "coach@state.edu", 95⟩,
                ⟨11, "Tech", "NCAA DII", "coach@tech.edu", 80⟩],
    outreach := [⟨20, 10, "2026-01-01", "Hi coach"⟩,
                 ⟨21, 11, "2026-01-02", "Hello"⟩,
                 ⟨22, 10, "2026-01-03", "Following up"⟩],
    botMessages := [],
    botName := "Recruiting Bot" }

/-! # Theorems

General helper lemmas first, then one theorem per claim (with the witness or
counterexample theorems the claim needs). -/

theorem jsRound_mono {x y : ℚ} (h : x ≤ y) : jsRound x ≤ jsRound y :=
  Int.floor_mono (by linarith)

theorem jsRound_zero : jsRound 0 = 0 := by
  unfold jsRound
  norm_num

theorem jsRound_hundred : jsRound 100 = 100 := by
  unfold jsRound
  norm_num

theorem jsRound_nonneg {x : ℚ} (h : 0 ≤ x) : 0 ≤ jsRound x := by
  have := jsRound_mono h
  rwa [jsRound_zero] at this

/-- Rounding then clamping to `[0,100]` (as the code does) equals clamping
then rounding (as the spec writes it). -/
theorem jsRound_clamp (x : ℚ) :
    min 100 (max 0 (jsRound x)) = jsRound (specClamp x) := by
  unfold specClamp
  rcases le_total x 0 with h | h
  · have h1 : jsRound x ≤ 0 := by
      have := jsRound_mono h
      rwa [jsRound_zero] at this
    have h2 : max (0 : ℚ) (min 100 x) = 0 := max_eq_left (le_trans (min_le_right _ _) h)
    rw [h2, jsRound_zero]
    omega
  · rcases le_total x 100 with h' | h'
    · have h0 : 0 ≤ jsRound x := jsRound_nonneg h
      have h100 : jsRound x ≤ 100 := by
        have := jsRound_mono h'
        rwa [jsRound_hundred] at this
      rw [min_eq_right h', max_eq_right h]
      omega
    · have h100 : 100 ≤ jsRound x := by
        have := jsRound_mono h'
        rwa [jsRound_hundred] at this
      have h2 : max (0 : ℚ) (min 100 x) = 100 := by
        rw [min_eq_left h']
        exact max_eq_right (by norm_num)
      rw [h2, jsRound_hundred]
      omega

/-- C1 counterexample: a profile with all eight scalar fields non-empty and
two achievements yields completion 111 — the computation does not saturate
the achievement count at 1 and the result is not bounded by 100. -/
theorem claim_C1_counterexample :
    completedFields fullProfile2 = 8 ∧ fullProfile2.achievements.length = 2 ∧
    profileCompletion fullProfile2 = 111 ∧ ¬ profileCompletion fullProfile2 ≤ 100 := by
  have hc : completedFields fullProfile2 = 8 := by decide
  have hl : fullProfile2.achievements.length = 2 := by decide
  have hv : profileCompletion fullProfile2 = 111 := by
    unfold profileCompletion
    rw [hc, hl]
    unfold jsRound
    norm_num
  exact ⟨hc, hl, hv, by omega⟩

/-- C1 (amended): the completion percentage is
`round((number of non-empty core fields + number of achievements) / 9 * 100)`
— the achievement count is NOT capped at 1.  With all 8 scalar fields
non-empty it is 89 with zero achievements and 100 with one achievement, but
with two or more achievements it exceeds 100 (111 at two); the result is
always ≥ 0 but not bounded above by 100. -/
theorem claim_C1_amended :
    (∀ p : Profile, profileCompletion p =
      jsRound (((completedFields p : ℚ) + (p.achievements.length : ℚ)) / 9 * 100)) ∧
    (∀ p : Profile, 0 ≤ profileCompletion p) ∧
    profileCompletion emptyProfile = 0 ∧
    (∀ p : Profile, completedFields p = 8 → p.achievements.length = 0 →
      profileCompletion p = 89) ∧
    (∀ p : Profile, completedFields p = 8 → p.achievements.length = 1 →
      profileCompletion p = 100) ∧
    (∀ p : Profile, completedFields p = 8 → 2 ≤ p.achievements.length →
      100 < profileCompletion p) := by
  refine ⟨?_, ?_, ?_, ?_, ?_, ?_⟩
  · intro p
    unfold profileCompletion
    norm_num
  · intro p
    unfold profileCompletion
    apply jsRound_nonneg
    positivity
  · have hc : completedFields emptyProfile = 0 := by decide
    have hl : emptyProfile.achievements.length = 0 := by decide
    unfold profileCompletion
    rw [hc, hl]
    unfold jsRound
    norm_num
  · intro p hc hl
    unfold profileCompletion
    rw [hc, hl]
    unfold jsRound
    norm_num
  · intro p hc hl
    unfold profileCompletion
    rw [hc, hl]
    unfold jsRound
    norm_num
  · intro p hc hl
    have h2 : (2 : ℚ) ≤ (p.achievements.length : ℚ) := by exact_mod_cast hl
    have hx : (111 : ℚ) ≤
        ((completedFields p : ℚ) + (p.achievements.length : ℚ)) / (8 + 1) * 100 + 1 / 2 := by
      rw [hc]
      push_cast
      linarith
    have h111 : (111 : ℤ) ≤ profileCompletion p := by
      unfold profileCompletion jsRound
      exact Int.le_floor.mpr (by exact_mod_cast hx)
    omega

/-- C1 witness: the amended claim instantiated at a concrete profile with all
eight scalar fields non-empty and exactly one achievement. -/
theorem claim_C1_witness :
    completedFields fullProfile1 = 8 ∧ fullProfile1.achievements.length = 1 ∧
    profileCompletion fullProfile1 = 100 :=
  ⟨by decide, by decide,
    claim_C1_amended.2.2.2.2.1 fullProfile1 (by decide) (by decide)⟩

/-- C6: `computeFitScore` always lands in `[0,100]`; an unparsable GPA gives
exactly 50; a finite parsed value `q` gives `round(clamp(q/4*100, 0, 100))`,
with negative values clamping to 0; and the spec's concrete cases hold. -/
theorem claim_C6 :
    (∀ g : String, 0 ≤ computeFitScore g ∧ computeFitScore g ≤ 100) ∧
    (∀ g : String, jsParseFloat g = JSNum.nan → computeFitScore g = 50) ∧
    (∀ (g : String) (q : ℚ), jsParseFloat g = JSNum.num q →
      computeFitScore g = jsRound (specClamp (q / 4 * 100))) ∧
    (∀ (g : String) (q : ℚ), jsParseFloat g = JSNum.num q → q < 0 →
      computeFitScore g = 0) ∧
    computeFitScore "4.0" = 100 ∧
    computeFitScore "0" = 0 ∧
    computeFitScore "not-a-number" = 50 ∧
    computeFitScore "5.0" = 100 := by
  refine ⟨?_, ?_, ?_, ?_, ?_, ?_, ?_, ?_⟩
  · intro g
    cases hj : jsParseFloat g with
    | nan => simp only [computeFitScore, hj]; omega
    | inf neg => cases neg <;> simp only [computeFitScore, hj] <;> omega
    | num q => simp only [computeFitScore, hj]; omega
  · intro g h
    simp only [computeFitScore, h]
  · intro g q h
    simp only [computeFitScore, h]
    exact jsRound_clamp _
  · intro g q h hneg
    simp only [computeFitScore, h]
    have hx : q / 4 * 100 ≤ 0 := by linarith
    have h0 : jsRound (q / 4 * 100) ≤ 0 := by
      have := jsRound_mono hx
      rwa [jsRound_zero] at this
    omega
  · have hp : parseSigned ['4', '.', '0'] = some (.num false ⟨4, 0, 1, false, 0⟩, []) := by
      decide
    simp [computeFitScore, jsParseFloat, hp, DecTok.val, applyExp, jsRound]
    norm_num
  · have hp : parseSigned ['0'] = some (.num false ⟨0, 0, 0, false, 0⟩, []) := by decide
    simp [computeFitScore, jsParseFloat, hp, DecTok.val, applyExp, jsRound]
    norm_num
  · have hp : parseSigned ['n', 'o', 't', '-', 'a', '-', 'n', 'u', 'm', 'b', 'e', 'r'] =
        none := by decide
    simp [computeFitScore, jsParseFloat, hp]
  · have hp : parseSigned ['5', '.', '0'] = some (.num false ⟨5, 0, 1, false, 0⟩, []) := by
      decide
    simp [computeFitScore, jsParseFloat, hp, DecTok.val, applyExp, jsRound]
    norm_num

/-- C6 witness: the unparsable-input and finite-value conjuncts instantiated
at concrete strings. -/
theorem claim_C6_witness :
    jsParseFloat "xyz" = JSNum.nan ∧ computeFitScore "xyz" = 50 := by
  have hp : parseSigned ['x', 'y', 'z'] = none := by decide
  have h : jsParseFloat "xyz" = JSNum.nan := by simp [jsParseFloat, hp]
  exact ⟨h, claim_C6.2.1 "xyz" h⟩

/-! ### Helper lemmas about `takeWhile`/`dropWhile`/parsing over appends,
used to settle C10 (trailing-garbage behaviour of `parseFloat`). -/

theorem takeWhile_dropWhile_append {p : Char → Bool} {l₂ : List Char} (u : List Char)
    (hB : ∀ c, l₂.head? = some c → p c = false) :
    (u ++ l₂).takeWhile p = u.takeWhile p ∧ (u ++ l₂).dropWhile p = u.dropWhile p ++ l₂ := by
  induction u with
  | nil =>
    simp only [List.nil_append, List.takeWhile_nil, List.dropWhile_nil]
    cases l₂ with
    | nil => simp
    | cons c t =>
      have hc := hB c rfl
      simp [List.takeWhile_cons, List.dropWhile_cons, hc]
  | cons a u ih =>
    by_cases hp : p a <;>
      simp [List.takeWhile_cons, List.dropWhile_cons, hp, ih.1, ih.2]

theorem dropWhile_append_of_ne_nil {p : Char → Bool} {A : List Char} (B : List Char)
    (h : A.dropWhile p ≠ []) :
    (A ++ B).dropWhile p = A.dropWhile p ++ B := by
  induction A with
  | nil => simp at h
  | cons a A ih =>
    by_cases hp : p a
    · have h' : A.dropWhile p ≠ [] := by
        simpa [List.dropWhile_cons, hp] using h
      simp [List.dropWhile_cons, hp, ih h']
    · simp [List.dropWhile_cons, hp]

theorem dropWhile_head_not {p : Char → Bool} {l : List Char} :
    ∀ c, (l.dropWhile p).head? = some c → p c = false := by
  induction l with
  | nil => simp
  | cons a t ih =>
    intro c h
    by_cases hp : p a
    · rw [List.dropWhile_cons, if_pos hp] at h
      exact ih c h
    · rw [List.dropWhile_cons, if_neg hp] at h
      simp only [List.head?_cons, Option.some.injEq] at h
      subst h
      exact Bool.eq_false_iff.mpr hp

theorem signSplit_append (c : Char) (u l₂ : List Char) :
    signSplit ((c :: u) ++ l₂) = ((signSplit (c :: u)).1, (signSplit (c :: u)).2 ++ l₂) := by
  by_cases h1 : c = '-'
  · simp [signSplit, h1]
  · by_cases h2 : c = '+' <;> simp [signSplit, h1, h2]

theorem parseSigned_nil : parseSigned [] = none := rfl

theorem parseDec_nil : parseDec [] = none := rfl

/-- A successful unsigned decimal parse starts with a digit or a dot. -/
theorem parseDec_some_head {l : List Char} {t : DecTok} {r : List Char}
    (h : parseDec l = some (t, r)) :
    ∃ c u, l = c :: u ∧ (Char.isDigit c = true ∨ c = '.') := by
  cases l with
  | nil => exact absurd h (by simp [parseDec_nil])
  | cons c u =>
    refine ⟨c, u, rfl, ?_⟩
    by_cases hd : Char.isDigit c
    · exact Or.inl hd
    · by_cases hdot : c = '.'
      · exact Or.inr hdot
      · exfalso
        have h1 : (c :: u).takeWhile Char.isDigit = [] := by
          simp [List.takeWhile_cons, hd]
        have h2 : (c :: u).dropWhile Char.isDigit = c :: u := by
          simp [List.dropWhile_cons, hd]
        simp only [parseDec, h1, h2, fracSplit, if_neg hdot] at h
        simp at h

theorem expSplit_append {r l₂ : List Char} {en : Bool} {em : ℕ}
    (h : expSplit r = ((en, em), []))
    (hB : ∀ c, l₂.head? = some c →
      Char.isDigit c = false ∧ c ≠ 'e' ∧ c ≠ 'E') :
    expSplit (r ++ l₂) = ((en, em), l₂) := by
  cases r with
  | nil =>
    simp only [expSplit, Prod.mk.injEq] at h
    obtain ⟨⟨hen, hem⟩, -⟩ := h
    subst hen
    subst hem
    cases l₂ with
    | nil => simp [expSplit]
    | cons c t =>
      obtain ⟨-, hce, hcE⟩ := hB c rfl
      simp [expSplit, hce, hcE]
  | cons c s =>
    by_cases hc : c = 'e' ∨ c = 'E'
    · rcases hss : signSplit s with ⟨sneg, t'⟩
      simp only [expSplit, if_pos hc, hss] at h
      by_cases hed : (t'.takeWhile Char.isDigit).isEmpty
      · rw [if_pos hed] at h
        simp only [Prod.mk.injEq] at h
        exact absurd h.2 (by simp)
      · rw [if_neg hed] at h
        simp only [Prod.mk.injEq] at h
        obtain ⟨⟨hen, hem⟩, hdrop⟩ := h
        have hall : ∀ x ∈ t', Char.isDigit x = true := List.dropWhile_eq_nil_iff.mp hdrop
        have htake : t'.takeWhile Char.isDigit = t' := List.takeWhile_eq_self_iff.mpr hall
        have ht'ne : t' ≠ [] := by
          intro hnil
          rw [hnil, List.takeWhile_nil] at htake
          rw [hnil] at hed
          simp at hed
        obtain ⟨c₂, u, rfl⟩ : ∃ c₂ u, s = c₂ :: u := by
          cases s with
          | nil =>
            exfalso
            simp only [signSplit, Prod.mk.injEq] at hss
            exact ht'ne hss.2.symm
          | cons c₂ u => exact ⟨c₂, u, rfl⟩
        have hsplit2 : signSplit (c₂ :: (u ++ l₂)) = (sneg, t' ++ l₂) := by
          have h' := signSplit_append c₂ u l₂
          rw [hss] at h'
          simpa using h'
        have hBdigit : ∀ x, l₂.head? = some x → Char.isDigit x = false :=
          fun x hx => (hB x hx).1
        have htd := takeWhile_dropWhile_append (p := Char.isDigit) t' hBdigit
        rw [htake] at hem
        simp only [List.cons_append, expSplit, if_pos hc, hsplit2]
        rw [htd.1, htake, htd.2, hdrop]
        rw [if_neg (by intro hemp; rw [List.isEmpty_iff] at hemp; exact ht'ne hemp)]
        rw [hen, hem]
        simp
    · simp only [expSplit, if_neg hc, Prod.mk.injEq] at h
      exact absurd h.2 (by simp)

theorem fracSplit_append {r1 l₂ : List Char} {fp r2 : List Char}
    (h : fracSplit r1 = (fp, r2))
    (hB : ∀ c, l₂.head? = some c → Char.isDigit c = false ∧ c ≠ '.') :
    fracSplit (r1 ++ l₂) = (fp, r2 ++ l₂) := by
  cases r1 with
  | nil =>
    simp only [fracSplit, Prod.mk.injEq] at h
    obtain ⟨h1, h2⟩ := h
    subst h1
    subst h2
    cases l₂ with
    | nil => simp [fracSplit]
    | cons c t =>
      obtain ⟨-, hdot⟩ := hB c rfl
      simp [fracSplit, hdot]
  | cons c u =>
    by_cases hdot : c = '.'
    · have hBdigit : ∀ x, l₂.head? = some x → Char.isDigit x = false :=
        fun x hx => (hB x hx).1
      have htd := takeWhile_dropWhile_append (p := Char.isDigit) u hBdigit
      simp only [fracSplit, if_pos hdot, Prod.mk.injEq] at h
      obtain ⟨h1, h2⟩ := h
      simp only [List.cons_append, fracSplit, if_pos hdot, htd.1, htd.2, h1, h2]
    · simp only [fracSplit, if_neg hdot, Prod.mk.injEq] at h
      obtain ⟨h1, h2⟩ := h
      subst h1
      simp only [List.cons_append, fracSplit, if_neg hdot]
      rw [← h2]
      simp

theorem parseDec_append {l₁ l₂ : List Char} {t : DecTok}
    (h : parseDec l₁ = some (t, []))
    (hB : ∀ c, l₂.head? = some c →
      Char.isDigit c = false ∧ c ≠ '.' ∧ c ≠ 'e' ∧ c ≠ 'E') :
    parseDec (l₁ ++ l₂) = some (t, l₂) := by
  have hBdigit : ∀ x, l₂.head? = some x → Char.isDigit x = false := fun x hx => (hB x hx).1
  have htd := takeWhile_dropWhile_append (p := Char.isDigit) l₁ hBdigit
  rcases hfs : fracSplit (l₁.dropWhile Char.isDigit) with ⟨fp, r2⟩
  rcases hes : expSplit r2 with ⟨⟨en, em⟩, r3⟩
  simp only [parseDec, hfs, hes] at h
  split_ifs at h with hguard
  simp only [Option.some.injEq, Prod.mk.injEq] at h
  obtain ⟨ht, hr3⟩ := h
  subst hr3
  have hfs2 := fracSplit_append hfs (fun c hc => ⟨(hB c hc).1, (hB c hc).2.1⟩)
  have hes2 := expSplit_append hes
    (fun c hc => ⟨(hB c hc).1, (hB c hc).2.2.1, (hB c hc).2.2.2⟩)
  simp only [parseDec, htd.1, htd.2, hfs2, hes2]
  rw [if_neg hguard, ht]

theorem parseSigned_append {l₁ l₂ : List Char} {neg : Bool} {t : DecTok}
    (h : parseSigned l₁ = some (.num neg t, []))
    (hB : ∀ c, l₂.head? = some c →
      Char.isDigit c = false ∧ c ≠ '.' ∧ c ≠ 'e' ∧ c ≠ 'E') :
    parseSigned (l₁ ++ l₂) = some (.num neg t, l₂) := by
  cases l₁ with
  | nil => exact absurd h (by simp [parseSigned_nil])
  | cons c u =>
    rcases hss : signSplit (c :: u) with ⟨sneg, l'⟩
    simp only [parseSigned, hss] at h
    by_cases hInf : "Infinity".toList.isPrefixOf l'
    · rw [if_pos hInf] at h
      simp at h
    · rw [if_neg hInf] at h
      rcases hpd : parseDec l' with _ | ⟨td, r⟩
      · rw [hpd] at h
        simp at h
      · rw [hpd] at h
        simp only [Option.some.injEq, Prod.mk.injEq, FloatTok.num.injEq] at h
        obtain ⟨⟨hneg, ht⟩, hr⟩ := h
        subst hr
        obtain ⟨d, w, hlw, hd⟩ := parseDec_some_head hpd
        have hsplit2 : signSplit (c :: (u ++ l₂)) = (sneg, l' ++ l₂) := by
          have h' := signSplit_append c u l₂
          rw [hss] at h'
          simpa using h'
        have hdne : ('I' == d) = false := by
          rcases hd with hdig | hdot
          · refine beq_eq_false_iff_ne.mpr ?_
            intro he
            rw [← he] at hdig
            simp at hdig
          · subst hdot
            decide
        have hInf2 : "Infinity".toList.isPrefixOf (l' ++ l₂) = false := by
          subst hlw
          show List.isPrefixOf ('I' :: "nfinity".toList) (d :: (w ++ l₂)) = false
          simp only [List.isPrefixOf, hdne, Bool.false_and]
        have hpd2 := parseDec_append hpd hB
        simp only [List.cons_append, parseSigned, hsplit2]
        rw [if_neg (by rw [hInf2]; exact Bool.false_ne_true), hpd2, hneg, ht]

/-- C10: `computeFitScore` accepts a numeric prefix: `"3.5abc"` yields the
clamped rounded score of `3.5` (namely 88, not the neutral default 50);
appending non-numeric garbage to any fully-parsed finite GPA string never
changes the score; and every string with a parseable leading float goes
through the clamp-round formula rather than the neutral default path. -/
theorem claim_C10 :
    computeFitScore "3.5abc" = 88 ∧
    (88 : ℤ) ≠ 50 ∧
    (∀ (num garbage : String) (neg : Bool) (t : DecTok),
      parseSigned (num.toList.dropWhile Char.isWhitespace) = some (.num neg t, []) →
      (∀ c, garbage.toList.head? = some c →
        Char.isDigit c = false ∧ c ≠ '.' ∧ c ≠ 'e' ∧ c ≠ 'E') →
      jsParseFloat (num ++ garbage) = jsParseFloat num ∧
      computeFitScore (num ++ garbage) = computeFitScore num) ∧
    (∀ (g : String) (q : ℚ), jsParseFloat g = JSNum.num q →
      computeFitScore g = min 100 (max 0 (jsRound (q / 4 * 100)))) := by
  refine ⟨?_, by decide, ?_, ?_⟩
  · have hp : parseSigned ['3', '.', '5', 'a', 'b', 'c'] =
        some (.num false ⟨3, 5, 1, false, 0⟩, ['a', 'b', 'c']) := by decide
    simp [computeFitScore, jsParseFloat, hp, DecTok.val, applyExp, jsRound]
    norm_num
  · intro num garbage neg t h hB
    have hne : num.toList.dropWhile Char.isWhitespace ≠ [] := by
      intro hnil
      rw [hnil, parseSigned_nil] at h
      exact absurd h (by simp)
    have happ : (num ++ garbage).toList = num.toList ++ garbage.toList := rfl
    have hdw : (num.toList ++ garbage.toList).dropWhile Char.isWhitespace =
        num.toList.dropWhile Char.isWhitespace ++ garbage.toList :=
      dropWhile_append_of_ne_nil _ hne
    have h2 := parseSigned_append h hB
    have hj : jsParseFloat (num ++ garbage) = jsParseFloat num := by
      simp only [jsParseFloat, happ, hdw, h2, h]
    exact ⟨hj, by simp only [computeFitScore, hj]⟩
  · intro g q h
    simp only [computeFitScore, h]

/-- C10 witness: the trailing-garbage conjunct instantiated at `"3.5"` and
`"abc"`. -/
theorem claim_C10_witness :
    jsParseFloat ("3.5" ++ "abc") = jsParseFloat "3.5" ∧
    computeFitScore ("3.5" ++ "abc") = computeFitScore "3.5" := by
  have h : parseSigned ("3.5".toList.dropWhile Char.isWhitespace) =
      some (.num false ⟨3, 5, 1, false, 0⟩, []) := by decide
  refine claim_C10.2.2.1 "3.5" "abc" false ⟨3, 5, 1, false, 0⟩ h ?_
  intro c hc
  rw [show "abc".toList.head? = some 'a' from rfl] at hc
  have hca := Option.some.inj hc
  subst hca
  decide

theorem length_filter_add_length_filter_negb {α : Type} (p : α → Bool) (l : List α) :
    (l.filter p).length + (l.filter (fun a => ! p a)).length = l.length := by
  induction l with
  | nil => simp
  | cons a t ih =>
    cases hp : p a <;> simp [List.filter_cons, hp] <;> omega

/-- C2: `removeSchool S` filters the school with id `S` out of the schools
list and cascades to exactly the outreach entries with `schoolId = S` (one
state transition, so both are visible together): the outreach count drops by
the number of matching entries, non-matching entries survive unchanged, no
surviving entry references `S`, and referential integrity is preserved. -/
theorem claim_C2 (s : AppState) (S : ℤ) :
    (removeSchool S s).schools = s.schools.filter (fun sc => sc.id ≠ S) ∧
    (removeSchool S s).outreach = s.outreach.filter (fun o => o.schoolId ≠ S) ∧
    (removeSchool S s).outreach.length =
      s.outreach.length - (s.outreach.filter (fun o => o.schoolId = S)).length ∧
    (∀ o ∈ (removeSchool S s).outreach, o.schoolId ≠ S) ∧
    (∀ o ∈ s.outreach, o.schoolId ≠ S → o ∈ (removeSchool S s).outreach) ∧
    (∀ sc ∈ (removeSchool S s).schools, sc.id ≠ S) ∧
    ((∀ o ∈ s.outreach, ∃ sc ∈ s.schools, sc.id = o.schoolId) →
      ∀ o ∈ (removeSchool S s).outreach,
        ∃ sc ∈ (removeSchool S s).schools, sc.id = o.schoolId) ∧
    (removeSchool S s).profile = s.profile ∧
    (removeSchool S s).botMessages = s.botMessages := by
  refine ⟨rfl, rfl, ?_, ?_, ?_, ?_, ?_, rfl, rfl⟩
  · have hkey := length_filter_add_length_filter_negb
      (fun o : Outreach => decide (o.schoolId = S)) s.outreach
    have hfun : (fun o : Outreach => decide (o.schoolId ≠ S)) =
        (fun o => ! decide (o.schoolId = S)) := by
      funext o
      by_cases h : o.schoolId = S <;> simp [h]
    simp only [removeSchool]
    rw [hfun]
    omega
  · intro o ho
    simp only [removeSchool, List.mem_filter, decide_eq_true_eq] at ho
    exact ho.2
  · intro o ho hne
    simp only [removeSchool, List.mem_filter, decide_eq_true_eq]
    exact ⟨ho, hne⟩
  · intro sc hsc
    simp only [removeSchool, List.mem_filter, decide_eq_true_eq] at hsc
    exact hsc.2
  · intro hinv o ho
    simp only [removeSchool, List.mem_filter, decide_eq_true_eq] at ho
    obtain ⟨hmem, hne⟩ := ho
    obtain ⟨sc, hsc, hid⟩ := hinv o hmem
    refine ⟨sc, ?_, hid⟩
    simp only [removeSchool, List.mem_filter, decide_eq_true_eq]
    exact ⟨hsc, by rw [hid]; exact hne⟩

/-- C2 witness: the length equation and entry survival instantiated at a
concrete state and school id. -/
theorem claim_C2_witness :
    (removeSchool 10 sampleState).outreach.length =
      sampleState.outreach.length -
        (sampleState.outreach.filter (fun o => o.schoolId = 10)).length ∧
    (⟨21, 11, "2026-01-02", "Hello"⟩ : Outreach) ∈ (removeSchool 10 sampleState).outreach :=
  ⟨(claim_C2 sampleState 10).2.2.1,
   (claim_C2 sampleState 10).2.2.2.2.1 ⟨21, 11, "2026-01-02", "Hello"⟩ (by decide) (by decide)⟩

/-- C3: `addSchool` snapshots `computeFitScore(profile.gpa)` at call time
into the appended school, and `handleProfileChange` (for every field,
including `gpa`) never touches the schools list, so every stored `fitScore`
survives every profile update unchanged. -/
theorem claim_C3 (s : AppState) (now : ℤ) (name division contact : String)
    (h : jsTrim name ≠ "") :
    (addSchool now name division contact s).schools =
      s.schools ++ [{ id := now, name := name, division := division, contact := contact,
                      fitScore := computeFitScore s.profile.gpa }] ∧
    (∀ (u : ProfileUpdate) (s' : AppState), (handleProfileChange u s').schools = s'.schools) ∧
    (∀ u : ProfileUpdate,
      (handleProfileChange u (addSchool now name division contact s)).schools =
        s.schools ++ [{ id := now, name := name, division := division, contact := contact,
                        fitScore := computeFitScore s.profile.gpa }]) := by
  have h1 : (addSchool now name division contact s).schools =
      s.schools ++ [{ id := now, name := name, division := division, contact := contact,
                      fitScore := computeFitScore s.profile.gpa }] := by
    simp only [addSchool, if_neg h]
  exact ⟨h1, fun u s' => rfl, fun u => h1⟩

/-- C3 witness: adding a school to the sample state and then changing the
GPA leaves the appended school's stored fit score as computed from the GPA
at add time. -/
theorem claim_C3_witness :
    (addSchool 30 "Duke" "NCAA DI" "fb@duke.edu" sampleState).schools =
      sampleState.schools ++
        [{ id := 30, name := "Duke", division := "NCAA DI", contact := "fb@duke.edu",
           fitScore := computeFitScore sampleState.profile.gpa }] ∧
    (handleProfileChange (.gpa "1.0") (addSchool 30 "Duke" "NCAA DI" "fb@duke.edu"
        sampleState)).schools =
      sampleState.schools ++
        [{ id := 30, name := "Duke", division := "NCAA DI", contact := "fb@duke.edu",
           fitScore := computeFitScore sampleState.profile.gpa }] :=
  ⟨(claim_C3 sampleState 30 "Duke" "NCAA DI" "fb@duke.edu" (by decide)).1,
   (claim_C3 sampleState 30 "Duke" "NCAA DI" "fb@duke.edu" (by decide)).2.2 (.gpa "1.0")⟩

/-- C5: `sendToBot` appends exactly the user message (original casing, id
from the first clock read) and the bot reply (id one past the second clock
read) in that order; when both reads observe the same instant the two ids
are still distinct and ordered; whitespace-only input changes nothing. -/
theorem claim_C5 (s : AppState) (t1 t2 : ℤ) (input : String) :
    (jsTrim input = "" → sendToBot t1 t2 input s = s) ∧
    (jsTrim input ≠ "" →
      (sendToBot t1 t2 input s).botMessages =
        s.botMessages ++
          [{ id := t1, sender := .user, text := input },
           { id := t2 + 1, sender := .bot, text := respond s.botName input }] ∧
      (t1 ≤ t2 → t1 < t2 + 1)) := by
  constructor
  · intro h
    simp [sendToBot, h]
  · intro h
    exact ⟨by simp [sendToBot, h], by omega⟩

/-- C5 witness: one call on non-blank input appends the two messages with
ids 100 and 101 in order, and a blank call is a no-op. -/
theorem claim_C5_witness :
    (sendToBot 100 100 "Hello there" sampleState).botMessages =
      sampleState.botMessages ++
        [{ id := 100, sender := .user, text := "Hello there" },
         { id := 100 + 1, sender := .bot, text := respond sampleState.botName "Hello there" }] ∧
    sendToBot 100 100 "   " sampleState = sampleState :=
  ⟨((claim_C5 sampleState 100 100 "Hello there").2 (by decide)).1,
   (claim_C5 sampleState 100 100 "   ").1 (by decide)⟩

/-- C9: `logOutreach` is a no-op when the school id does not resolve or the
message trims to empty; otherwise it appends exactly one entry carrying that
school id, the message, id `now`, and the calendar-date part (everything
before the `'T'`) of the ISO timestamp, which contains no time component. -/
theorem claim_C9 (s : AppState) (now : ℤ) (isoNow : String) (schoolId : ℤ)
    (message : String) :
    (s.schools.find? (fun sc => sc.id = schoolId) = none →
      logOutreach now isoNow schoolId message s = s) ∧
    (jsTrim message = "" → logOutreach now isoNow schoolId message s = s) ∧
    (∀ school, s.schools.find? (fun sc => sc.id = schoolId) = some school →
      jsTrim message ≠ "" →
      (logOutreach now isoNow schoolId message s).outreach =
        s.outreach ++ [{ id := now, schoolId := schoolId, date := todayFrom isoNow,
                         message := message }] ∧
      (logOutreach now isoNow schoolId message s).schools = s.schools) ∧
    (∀ c ∈ (todayFrom isoNow).toList, c ≠ 'T') ∧
    todayFrom "2026-10-12T08:00:00.000Z" = "2026-10-12" := by
  refine ⟨?_, ?_, ?_, ?_, by decide⟩
  · intro h
    simp [logOutreach, h]
  · intro h
    rcases hf : s.schools.find? (fun sc => sc.id = schoolId) with _ | sc <;>
      simp [logOutreach, hf, h]
  · intro school hf hm
    have hid : school.id = schoolId := by
      have := List.find?_some hf
      simpa using this
    constructor
    · simp only [logOutreach, hf, if_neg hm, hid]
    · simp only [logOutreach, hf, if_neg hm]
  · intro c hc
    have : c ∈ (isoNow.toList.takeWhile (fun c => c ≠ 'T')) := by
      simpa [todayFrom] using hc
    have hp := List.mem_takeWhile_imp this
    simpa using hp

/-- C9 witness: logging a message for the existing school 10 appends exactly
one dated entry; an unknown id 99 and an empty message are no-ops. -/
theorem claim_C9_witness :
    (logOutreach 40 "2026-10-12T08:00:00.000Z" 10 "Hi" sampleState).outreach =
      sampleState.outreach ++
        [{ id := 40, schoolId := 10, date := todayFrom "2026-10-12T08:00:00.000Z",
           message := "Hi" }] ∧
    logOutreach 41 "2026-10-12T08:00:00.000Z" 99 "Hi" sampleState = sampleState ∧
    logOutreach 42 "2026-10-12T08:00:00.000Z" 10 "  " sampleState = sampleState :=
  ⟨((claim_C9 sampleState 40 "2026-10-12T08:00:00.000Z" 10 "Hi").2.2.1
      ⟨10, "State U", "NCAA DI", "coach@state.edu", 95⟩ (by decide) (by decide)).1,
   (claim_C9 sampleState 41 "2026-10-12T08:00:00.000Z" 99 "Hi").1 (by decide),
   (claim_C9 sampleState 42 "2026-10-12T08:00:00.000Z" 10 "  ").2.1 (by decide)⟩

/-- C4: the reply computation is the deterministic first-match-wins ordered
rule table over the lower-cased input — `respond` coincides with the explicit
table evaluation for every bot name and input — and on the spec's concrete
cases: `"Hello there"` hits rule 1, `"tell me about my SCHOOL list"` hits
rule 3 (not the fallback), `"xyz"` falls through to the fixed fallback, and
an input matching several rules gets the first one's reply. -/
theorem claim_C4 :
    (∀ botName input : String, respond botName input = respondTable botName input) ∧
    respond "Bot" "Hello there" = greetingReply "Bot" ∧
    respond "Bot" "tell me about my SCHOOL list" = schoolReply ∧
    respond "Bot" "tell me about my SCHOOL list" ≠ fallbackReply ∧
    respond "Bot" "xyz" = fallbackReply ∧
    respond "Bot" "hello profile" = greetingReply "Bot" := by
  refine ⟨fun botName input => rfl, ?_, ?_, ?_, ?_, ?_⟩ <;> decide

/-- C8: when the payload fails to parse, `importProfile` surfaces the
user-visible failure (the alert flag) and returns the state — and hence the
profile — exactly unchanged; `"not json"` is such a payload. -/
theorem claim_C8 :
    (∀ (raw : String) (s : AppState), jsonParse raw = none →
      importProfile raw s = (s, true)) ∧
    (∀ (raw : String) (s : AppState), jsonParse raw = none →
      (importProfile raw s).1.profile = s.profile) ∧
    jsonParse "not json" = none := by
  refine ⟨?_, ?_, rfl⟩
  · intro raw s h
    simp [importProfile, h]
  · intro raw s h
    simp [importProfile, h]

/-- C8 witness: importing the invalid payload `"not json"` into the sample
state alerts and leaves the state untouched. -/
theorem claim_C8_witness :
    importProfile "not json" sampleState = (sampleState, true) :=
  claim_C8.1 "not json" sampleState rfl

/-! ### Round-trip lemmas for the JSON stringifier and parser (claim C7) -/

theorem escapeChars_nil : escapeChars [] = [] := rfl

theorem escapeChars_cons (c : Char) (s : List Char) :
    escapeChars (c :: s) = escChar c ++ escapeChars s := rfl

theorem escChar_length_pos (c : Char) : 1 ≤ (escChar c).length := by
  unfold escChar
  split_ifs <;> simp

theorem escapeChars_length (s : List Char) : s.length ≤ (escapeChars s).length := by
  induction s with
  | nil => simp [escapeChars_nil]
  | cons c s ih =>
    rw [escapeChars_cons, List.length_append, List.length_cons]
    have := escChar_length_pos c
    omega

theorem hexVal_hexDigitChar : ∀ n, n < 16 → hexVal (hexDigitChar n) = some n := by decide

/-- Reading a `\uXXXX` escape below the surrogate range yields the character
with that code and continues. -/
theorem parseStrBodyAux_u (fuel : ℕ) (a b c1 d : Char) (ha hb hc hd : ℕ)
    (rest : List Char)
    (h1 : hexVal a = some ha) (h2 : hexVal b = some hb) (h3 : hexVal c1 = some hc)
    (h4 : hexVal d = some hd)
    (hlo : ((ha * 16 + hb) * 16 + hc) * 16 + hd < 55296) :
    parseStrBodyAux (fuel + 1) ('\\' :: 'u' :: a :: b :: c1 :: d :: rest) =
      (parseStrBodyAux fuel rest).map
        (fun p => (Char.ofNat (((ha * 16 + hb) * 16 + hc) * 16 + hd) :: p.1, p.2)) := by
  simp only [parseStrBodyAux, if_true, h1, h2, h3, h4,
    if_neg (by decide : ¬('\\' : Char) = '"')]
  rw [if_neg (by omega : ¬(55296 ≤ ((ha * 16 + hb) * 16 + hc) * 16 + hd ∧
      ((ha * 16 + hb) * 16 + hc) * 16 + hd ≤ 56319)),
    if_neg (by omega : ¬(56320 ≤ ((ha * 16 + hb) * 16 + hc) * 16 + hd ∧
      ((ha * 16 + hb) * 16 + hc) * 16 + hd ≤ 57343))]

/-- One escaped character consumes one parser step and produces exactly that
character. -/
theorem parseStrBodyAux_escChar (c : Char) (rest : List Char) (fuel : ℕ) :
    parseStrBodyAux (fuel + 1) (escChar c ++ rest) =
      (parseStrBodyAux fuel rest).map (fun p => (c :: p.1, p.2)) := by
  by_cases h1 : c = '"'
  · subst h1
    simp [escChar, parseStrBodyAux, escDecode]
  · by_cases h2 : c = '\\'
    · subst h2
      simp [escChar, parseStrBodyAux, escDecode]
    · by_cases h3 : c = Char.ofNat 8
      · subst h3
        simp [escChar, parseStrBodyAux, escDecode]
      · by_cases h4 : c = Char.ofNat 9
        · subst h4
          simp [escChar, parseStrBodyAux, escDecode]
        · by_cases h5 : c = Char.ofNat 10
          · subst h5
            simp [escChar, parseStrBodyAux, escDecode]
          · by_cases h6 : c = Char.ofNat 12
            · subst h6
              simp [escChar, parseStrBodyAux, escDecode]
            · by_cases h7 : c = Char.ofNat 13
              · subst h7
                simp [escChar, parseStrBodyAux, escDecode]
              · by_cases h8 : c.toNat < 32
                · -- the \u00XX case
                  have hdiv : c.toNat / 16 < 16 := by omega
                  have hmod : c.toNat % 16 < 16 := by omega
                  have hhex1 := hexVal_hexDigitChar _ hdiv
                  have hhex2 := hexVal_hexDigitChar _ hmod
                  have hesc : escChar c =
                      ['\\', 'u', '0', '0', hexDigitChar (c.toNat / 16),
                       hexDigitChar (c.toNat % 16)] := by
                    unfold escChar
                    rw [if_neg h1, if_neg h2, if_neg h3, if_neg h4, if_neg h5, if_neg h6,
                      if_neg h7, if_pos h8]
                  rw [hesc]
                  have hval : hexVal '0' = some 0 := by decide
                  rw [show (['\\', 'u', '0', '0', hexDigitChar (c.toNat / 16),
                      hexDigitChar (c.toNat % 16)] : List Char) ++ rest =
                    '\\' :: 'u' :: '0' :: '0' :: hexDigitChar (c.toNat / 16) ::
                      hexDigitChar (c.toNat % 16) :: rest from rfl]
                  rw [parseStrBodyAux_u fuel '0' '0' _ _ 0 0 (c.toNat / 16) (c.toNat % 16)
                    rest hval hval hhex1 hhex2 (by omega)]
                  rw [show ((0 * 16 + 0) * 16 + c.toNat / 16) * 16 + c.toNat % 16 = c.toNat
                    by omega]
                  rw [Char.ofNat_toNat]
                · -- literal character
                  have hesc : escChar c = [c] := by
                    unfold escChar
                    rw [if_neg h1, if_neg h2, if_neg h3, if_neg h4, if_neg h5, if_neg h6,
                      if_neg h7, if_neg h8]
                  rw [hesc]
                  simp only [List.append_eq, List.cons_append, List.nil_append,
                    parseStrBodyAux, if_neg h1, if_neg h2, if_neg h8]

theorem parseStrBodyAux_escape (s : List Char) :
    ∀ (fuel : ℕ) (rest : List Char), s.length + 1 ≤ fuel →
      parseStrBodyAux fuel (escapeChars s ++ '"' :: rest) = some (s, rest) := by
  induction s with
  | nil =>
    intro fuel rest hf
    obtain ⟨f, rfl⟩ : ∃ f, fuel = f + 1 := ⟨fuel - 1, by omega⟩
    simp [escapeChars_nil, parseStrBodyAux]
  | cons c s ih =>
    intro fuel rest hf
    obtain ⟨f, rfl⟩ : ∃ f, fuel = f + 1 := ⟨fuel - 1, by omega⟩
    rw [escapeChars_cons, List.append_assoc, parseStrBodyAux_escChar,
      ih f rest (by simp at hf; omega)]
    rfl

/-- `parseStrBody` inverts the stringifier's escaping: reading a quoted
string body gives back exactly the original characters. -/
theorem parseStrBody_escape (s : List Char) (rest : List Char) :
    parseStrBody (escapeChars s ++ '"' :: rest) = some (s, rest) := by
  unfold parseStrBody
  apply parseStrBodyAux_escape
  have := escapeChars_length s
  simp only [List.length_append, List.length_cons]
  omega

theorem natDigitsAux_stable (n : ℕ) :
    ∀ fuel, n + 1 ≤ fuel → natDigitsAux fuel n = natDigits n := by
  induction n using Nat.strong_induction_on with
  | _ n ih =>
    intro fuel hf
    obtain ⟨f, rfl⟩ : ∃ f, fuel = f + 1 := ⟨fuel - 1, by omega⟩
    by_cases h : n < 10
    · simp [natDigits, natDigitsAux, h]
    · simp only [natDigits, natDigitsAux, if_neg h]
      rw [ih (n / 10) (by omega) f (by omega), ih (n / 10) (by omega) n (by omega)]

theorem natDigits_eq (n : ℕ) :
    natDigits n = if n < 10 then [Char.ofNat (48 + n)]
      else natDigits (n / 10) ++ [Char.ofNat (48 + n % 10)] := by
  rw [show natDigits n = if n < 10 then [Char.ofNat (48 + n)]
    else natDigitsAux n (n / 10) ++ [Char.ofNat (48 + n % 10)] from rfl]
  by_cases h : n < 10
  · rw [if_pos h, if_pos h]
  · rw [if_neg h, if_neg h, natDigitsAux_stable (n / 10) n (by omega)]

theorem natDigits_all_digit (n : ℕ) : ∀ c ∈ natDigits n, Char.isDigit c = true := by
  induction n using Nat.strong_induction_on with
  | _ n ih =>
    rw [natDigits_eq]
    split_ifs with h
    · intro c hc
      simp only [List.mem_singleton] at hc
      subst hc
      exact (by decide : ∀ m, m < 10 → Char.isDigit (Char.ofNat (48 + m)) = true) n h
    · intro c hc
      rw [List.mem_append] at hc
      rcases hc with hc | hc
      · exact ih (n / 10) (by omega) c hc
      · simp only [List.mem_singleton] at hc
        subst hc
        exact (by decide : ∀ m, m < 10 → Char.isDigit (Char.ofNat (48 + m)) = true)
          (n % 10) (by omega)

theorem natDigits_ne_nil (n : ℕ) : natDigits n ≠ [] := by
  rw [natDigits_eq]
  split_ifs <;> simp

theorem digitsToNat_append_one (l : List Char) (c : Char) :
    digitsToNat (l ++ [c]) = 10 * digitsToNat l + (c.toNat - 48) := by
  unfold digitsToNat
  rw [List.foldl_append]
  rfl

theorem digitsToNat_natDigits (n : ℕ) : digitsToNat (natDigits n) = n := by
  induction n using Nat.strong_induction_on with
  | _ n ih =>
    rw [natDigits_eq]
    split_ifs with h
    · exact (by decide : ∀ m, m < 10 → digitsToNat [Char.ofNat (48 + m)] = m) n h
    · rw [digitsToNat_append_one, ih (n / 10) (by omega)]
      have h10 : (Char.ofNat (48 + n % 10)).toNat - 48 = n % 10 :=
        (by decide : ∀ m, m < 10 → (Char.ofNat (48 + m)).toNat - 48 = m) (n % 10) (by omega)
      rw [h10]
      omega

theorem parseJsonUnsigned_digits (neg : Bool) (L rest : List Char)
    (hL : ∀ c ∈ L, Char.isDigit c = true) (hneL : L ≠ [])
    (hB : ∀ c, rest.head? = some c →
      Char.isDigit c = false ∧ c ≠ '.' ∧ c ≠ 'e' ∧ c ≠ 'E') :
    parseJsonUnsigned neg (L ++ rest) =
      some (if neg then -(digitsToNat L : ℚ) else (digitsToNat L : ℚ), rest) := by
  have htd := takeWhile_dropWhile_append (p := Char.isDigit) L (fun c hc => (hB c hc).1)
  have htake : L.takeWhile Char.isDigit = L := List.takeWhile_eq_self_iff.mpr hL
  have hdrop : L.dropWhile Char.isDigit = [] := List.dropWhile_eq_nil_iff.mpr hL
  have hipne : ¬ ((L ++ rest).takeWhile Char.isDigit).isEmpty = true := by
    rw [htd.1, htake]
    cases L with
    | nil => exact absurd rfl hneL
    | cons a l => simp
  simp only [parseJsonUnsigned, htd.1, htd.2, htake, hdrop, List.nil_append, if_neg hipne]
  cases rest with
  | nil =>
    have hfp : fracPart ([] : List Char) = (none, []) := rfl
    simp only [hfp, expTail]
    cases neg <;> simp [digitsToNat] <;> exact hneL
  | cons c t =>
    obtain ⟨hcd, hcdot, hce, hcE⟩ := hB c rfl
    have hfp : fracPart (c :: t) = (none, c :: t) := by simp [fracPart, hcdot]
    have hnotE : ¬ (c = 'e' ∨ c = 'E') := by
      intro h
      rcases h with h | h
      · exact hce h
      · exact hcE h
    simp only [hfp, expTail, if_neg hnotE]
    cases neg <;> simp [digitsToNat] <;> exact hneL

theorem parseJsonNumber_printInt (i : ℤ) (rest : List Char)
    (hB : ∀ c, rest.head? = some c →
      Char.isDigit c = false ∧ c ≠ '.' ∧ c ≠ 'e' ∧ c ≠ 'E') :
    parseJsonNumber (printInt i ++ rest) = some ((i : ℚ), rest) := by
  by_cases hi : i < 0
  · have hp : printInt i = '-' :: natDigits i.natAbs := by simp [printInt, hi]
    rw [hp]
    rw [show ('-' :: natDigits i.natAbs) ++ rest = '-' :: (natDigits i.natAbs ++ rest)
      from rfl]
    simp only [parseJsonNumber, eq_self_iff_true, if_true]
    rw [parseJsonUnsigned_digits true _ rest (natDigits_all_digit _) (natDigits_ne_nil _) hB,
      digitsToNat_natDigits]
    have hiq : (i : ℚ) < 0 := by exact_mod_cast hi
    have h2 : ((i.natAbs : ℕ) : ℚ) = -(i : ℚ) := by
      rw [Int.cast_natAbs, Int.cast_abs]
      exact abs_of_neg hiq
    simp [h2]
  · have hp : printInt i = natDigits i.natAbs := by simp [printInt, hi]
    rw [hp]
    obtain ⟨d, ds, hds⟩ : ∃ d ds, natDigits i.natAbs = d :: ds := by
      cases hnd : natDigits i.natAbs with
      | nil => exact absurd hnd (natDigits_ne_nil _)
      | cons d ds => exact ⟨d, ds, rfl⟩
    have hd : Char.isDigit d = true := natDigits_all_digit _ d (by rw [hds]; simp)
    have hdm : ¬ d = '-' := by
      intro h
      rw [h] at hd
      exact absurd hd (by decide)
    rw [hds, show (d :: ds) ++ rest = d :: (ds ++ rest) from rfl]
    simp only [parseJsonNumber, if_neg hdm]
    rw [show d :: (ds ++ rest) = (d :: ds) ++ rest from rfl, ← hds]
    rw [parseJsonUnsigned_digits false _ rest (natDigits_all_digit _) (natDigits_ne_nil _) hB,
      digitsToNat_natDigits]
    have hiq : (0 : ℚ) ≤ (i : ℚ) := by exact_mod_cast not_lt.mp hi
    have h2 : ((i.natAbs : ℕ) : ℚ) = (i : ℚ) := by
      rw [Int.cast_natAbs, Int.cast_abs]
      exact abs_of_nonneg hiq
    simp [h2]

theorem stringMk_toList (s : String) : String.mk s.toList = s := rfl

theorem jsonWsDrop_cons_not {c : Char} (x : List Char) (h : wsChar c = false) :
    jsonWsDrop (c :: x) = c :: x := by
  simp [jsonWsDrop, List.dropWhile_cons, h]

theorem jsonWsDrop_ws_append {ws : List Char} (x : List Char)
    (hws : ∀ c ∈ ws, wsChar c = true) (hx : jsonWsDrop x = x) :
    jsonWsDrop (ws ++ x) = x := by
  induction ws with
  | nil => simpa [jsonWsDrop] using hx
  | cons a t ih =>
    have ha := hws a (by simp)
    rw [show (a :: t) ++ x = a :: (t ++ x) from rfl]
    have hstep : jsonWsDrop (a :: (t ++ x)) = jsonWsDrop (t ++ x) := by
      simp [jsonWsDrop, List.dropWhile_cons, ha]
    rw [hstep, ih (fun c hc => hws c (by simp [hc]))]

theorem parseVal_quoteStr (f : ℕ) (s : String) (rest : List Char) (hf : 1 ≤ f) :
    parseVal f (quoteStr s ++ rest) = some (.str s, rest) := by
  obtain ⟨f', rfl⟩ : ∃ f', f = f' + 1 := ⟨f - 1, by omega⟩
  rw [show quoteStr s ++ rest = '"' :: (escapeChars s.toList ++ ('"' :: rest)) by
    simp [quoteStr, List.append_assoc]]
  simp only [parseVal, if_true, if_false, parseStrBody_escape]
  rfl

theorem parseVal_lbrace (f : ℕ) (body : List Char) (fs : List (String × Json))
    (r : List Char) (h : parseMembers f (jsonWsDrop body) = some (fs, r)) :
    parseVal (f + 1) (lbraceChar :: body) = some (.obj fs, r) := by
  simp only [parseVal, if_true, if_false,
    if_neg (by decide : ¬ lbraceChar = '"')]
  rw [h]

theorem parseVal_lbrack (f : ℕ) (body : List Char) (xs : List Json)
    (r : List Char) (h : parseElems f (jsonWsDrop body) = some (xs, r)) :
    parseVal (f + 1) ('[' :: body) = some (.arr xs, r) := by
  simp only [parseVal, if_true, if_false,
    if_neg (by decide : ¬ ('[' : Char) = '"'),
    if_neg (by decide : ¬ ('[' : Char) = lbraceChar)]
  rw [h]

theorem parseMember_of_val (f : ℕ) (key : String) (vch : List Char) (v : Json)
    (rest : List Char)
    (hne : vch ≠ []) (hhead : ∀ c, vch.head? = some c → wsChar c = false)
    (hv : parseVal f (vch ++ rest) = some (v, rest)) :
    parseMember (f + 1) (quoteStr key ++ ':' :: ' ' :: (vch ++ rest)) =
      some ((key, v), rest) := by
  rw [show quoteStr key ++ ':' :: ' ' :: (vch ++ rest) =
    '"' :: (escapeChars key.toList ++ ('"' :: (':' :: ' ' :: (vch ++ rest)))) by
    simp [quoteStr, List.append_assoc]]
  have h1 : jsonWsDrop (':' :: ' ' :: (vch ++ rest)) = ':' :: ' ' :: (vch ++ rest) :=
    jsonWsDrop_cons_not _ (by decide)
  have hvchdrop : jsonWsDrop (vch ++ rest) = vch ++ rest := by
    obtain ⟨c, cs, rfl⟩ : ∃ c cs, vch = c :: cs := by
      cases vch with
      | nil => exact absurd rfl hne
      | cons c cs => exact ⟨c, cs, rfl⟩
    exact jsonWsDrop_cons_not _ (hhead c rfl)
  have hspdrop : jsonWsDrop (' ' :: (vch ++ rest)) = vch ++ rest := by
    rw [show (' ' :: (vch ++ rest)) = [' '] ++ (vch ++ rest) from rfl]
    exact jsonWsDrop_ws_append _ (by decide) hvchdrop
  simp only [parseMember, parseStrBody_escape, h1, hspdrop, hv, stringMk_toList]

theorem membersTail_head (ms : List (List Char × String × List Char))
    (endWs rest : List Char) (hend : ∀ c ∈ endWs, wsChar c = true) :
    ∀ c, (membersTailChars ms ++ (endWs ++ rbraceChar :: rest)).head? = some c →
      c = ',' ∨ wsChar c = true ∨ c = rbraceChar ∨ c = ']' := by
  intro c hc
  cases ms with
  | nil =>
    simp only [membersTailChars, List.nil_append] at hc
    cases endWs with
    | nil =>
      simp only [List.nil_append, List.head?_cons, Option.some.injEq] at hc
      subst hc
      exact Or.inr (Or.inr (Or.inl rfl))
    | cons w ws' =>
      simp only [List.cons_append, List.head?_cons, Option.some.injEq] at hc
      subst hc
      exact Or.inr (Or.inl (hend w (by simp)))
  | cons m l =>
    obtain ⟨ws1, k1, v1⟩ := m
    simp only [membersTailChars, List.cons_append, List.head?_cons, Option.some.injEq] at hc
    subst hc
    exact Or.inl rfl

theorem elemsTail_head (es : List (List Char × List Char))
    (endWs rest : List Char) (hend : ∀ c ∈ endWs, wsChar c = true) :
    ∀ c, (elemsTailChars es ++ (endWs ++ ']' :: rest)).head? = some c →
      c = ',' ∨ wsChar c = true ∨ c = rbraceChar ∨ c = ']' := by
  intro c hc
  cases es with
  | nil =>
    simp only [elemsTailChars, List.nil_append] at hc
    cases endWs with
    | nil =>
      simp only [List.nil_append, List.head?_cons, Option.some.injEq] at hc
      subst hc
      exact Or.inr (Or.inr (Or.inr rfl))
    | cons w ws' =>
      simp only [List.cons_append, List.head?_cons, Option.some.injEq] at hc
      subst hc
      exact Or.inr (Or.inl (hend w (by simp)))
  | cons e l =>
    obtain ⟨ws1, e1⟩ := e
    simp only [elemsTailChars, List.cons_append, List.head?_cons, Option.some.injEq] at hc
    subst hc
    exact Or.inl rfl

theorem parseMembersAfter_chain (B : ℕ)
    (ms : List ((List Char × String × List Char) × Json)) :
    ∀ (fuel : ℕ) (kv : String × Json) (endWs rest : List Char),
      (∀ m ∈ ms, (∀ c ∈ m.1.1, wsChar c = true) ∧ m.1.2.2 ≠ [] ∧
        (∀ c, m.1.2.2.head? = some c → wsChar c = false) ∧
        (∀ f r, B ≤ f →
          (∀ c, r.head? = some c → c = ',' ∨ wsChar c = true ∨ c = rbraceChar ∨ c = ']') →
          parseVal f (m.1.2.2 ++ r) = some (m.2, r))) →
      (∀ c ∈ endWs, wsChar c = true) →
      B + 2 * ms.length + 2 ≤ fuel →
      parseMembersAfter fuel kv
        (jsonWsDrop (membersTailChars (ms.map Prod.fst) ++ (endWs ++ rbraceChar :: rest))) =
      some (kv :: ms.map (fun m => (m.1.2.1, m.2)), rest) := by
  induction ms with
  | nil =>
    intro fuel kv endWs rest _ hend hf
    obtain ⟨f, rfl⟩ : ∃ f, fuel = f + 1 := ⟨fuel - 1, by omega⟩
    simp only [List.map_nil, membersTailChars, List.nil_append]
    rw [jsonWsDrop_ws_append _ hend (jsonWsDrop_cons_not _ (by decide : wsChar rbraceChar = false))]
    simp only [parseMembersAfter, if_true, if_false]
  | cons m ms ih =>
    intro fuel kv endWs rest hms hend hf
    obtain ⟨⟨ws, k, vch⟩, v⟩ := m
    obtain ⟨f, rfl⟩ : ∃ f, fuel = f + 1 := ⟨fuel - 1, by omega⟩
    obtain ⟨g, hg⟩ : ∃ g, f = g + 1 := ⟨f - 1, by simp at hf; omega⟩
    obtain ⟨hws, hvne, hvhead, hval⟩ := hms (((ws, k, vch), v)) (List.mem_cons_self _ _)
    have hms' : ∀ m ∈ ms, (∀ c ∈ m.1.1, wsChar c = true) ∧ m.1.2.2 ≠ [] ∧
        (∀ c, m.1.2.2.head? = some c → wsChar c = false) ∧
        (∀ f r, B ≤ f →
          (∀ c, r.head? = some c → c = ',' ∨ wsChar c = true ∨ c = rbraceChar ∨ c = ']') →
          parseVal f (m.1.2.2 ++ r) = some (m.2, r)) :=
      fun m hm => hms m (by simp [hm])
    simp only [List.map_cons, membersTailChars, List.cons_append, List.append_assoc]
    rw [jsonWsDrop_cons_not _ (by decide : wsChar ',' = false)]
    set T := membersTailChars (List.map Prod.fst ms) ++ (endWs ++ rbraceChar :: rest) with hT
    have hThead : ∀ c, T.head? = some c →
        c = ',' ∨ wsChar c = true ∨ c = rbraceChar ∨ c = ']' := by
      rw [hT]
      exact membersTail_head _ _ _ hend
    have hquote : memberChars k vch ++ T = quoteStr k ++ ':' :: ' ' :: (vch ++ T) := by
      simp [memberChars, List.append_assoc]
    have hdropm : jsonWsDrop (ws ++ (memberChars k vch ++ T)) = memberChars k vch ++ T := by
      apply jsonWsDrop_ws_append _ hws
      rw [hquote, show quoteStr k ++ ':' :: ' ' :: (vch ++ T) =
        '"' :: (escapeChars k.toList ++ ['"'] ++ (':' :: ' ' :: (vch ++ T))) by
        simp [quoteStr, List.append_assoc]]
      exact jsonWsDrop_cons_not _ (by decide)
    have hmem : parseMember f (memberChars k vch ++ T) = some ((k, v), T) := by
      rw [hquote, hg]
      exact parseMember_of_val g k vch v T hvne hvhead
        (hval g T (by simp at hf; omega) hThead)
    have hihe := ih f (k, v) endWs rest hms' hend (by simp at hf ⊢; omega)
    rw [← hT] at hihe
    simp only [parseMembersAfter, if_true, if_false,
      if_neg (by decide : ¬ (',' : Char) = rbraceChar), hdropm, hmem, hihe, List.map_cons]

theorem parseMembers_chain (B : ℕ) (k0 : String) (vch0 : List Char) (v0 : Json)
    (ms : List ((List Char × String × List Char) × Json))
    (fuel : ℕ) (ws0 endWs rest : List Char)
    (hws0 : ∀ c ∈ ws0, wsChar c = true)
    (hvne0 : vch0 ≠ []) (hvhead0 : ∀ c, vch0.head? = some c → wsChar c = false)
    (hval0 : ∀ f r, B ≤ f →
      (∀ c, r.head? = some c → c = ',' ∨ wsChar c = true ∨ c = rbraceChar ∨ c = ']') →
      parseVal f (vch0 ++ r) = some (v0, r))
    (hms : ∀ m ∈ ms, (∀ c ∈ m.1.1, wsChar c = true) ∧ m.1.2.2 ≠ [] ∧
      (∀ c, m.1.2.2.head? = some c → wsChar c = false) ∧
      (∀ f r, B ≤ f →
        (∀ c, r.head? = some c → c = ',' ∨ wsChar c = true ∨ c = rbraceChar ∨ c = ']') →
        parseVal f (m.1.2.2 ++ r) = some (m.2, r)))
    (hend : ∀ c ∈ endWs, wsChar c = true)
    (hf : B + 2 * ms.length + 4 ≤ fuel) :
    parseMembers fuel
      (jsonWsDrop (ws0 ++ (memberChars k0 vch0 ++
        (membersTailChars (ms.map Prod.fst) ++ (endWs ++ rbraceChar :: rest))))) =
    some ((k0, v0) :: ms.map (fun m => (m.1.2.1, m.2)), rest) := by
  obtain ⟨f, rfl⟩ : ∃ f, fuel = f + 1 := ⟨fuel - 1, by omega⟩
  obtain ⟨g, hg⟩ : ∃ g, f = g + 1 := ⟨f - 1, by omega⟩
  set T := membersTailChars (List.map Prod.fst ms) ++ (endWs ++ rbraceChar :: rest) with hT
  have hThead : ∀ c, T.head? = some c →
      c = ',' ∨ wsChar c = true ∨ c = rbraceChar ∨ c = ']' := by
    rw [hT]
    exact membersTail_head _ _ _ hend
  have hquote : memberChars k0 vch0 ++ T = quoteStr k0 ++ ':' :: ' ' :: (vch0 ++ T) := by
    simp [memberChars, List.append_assoc]
  have hexp : quoteStr k0 ++ ':' :: ' ' :: (vch0 ++ T) =
      '"' :: (escapeChars k0.toList ++ ['"'] ++ (':' :: ' ' :: (vch0 ++ T))) := by
    simp [quoteStr, List.append_assoc]
  have hdropm : jsonWsDrop (ws0 ++ (memberChars k0 vch0 ++ T)) = memberChars k0 vch0 ++ T := by
    apply jsonWsDrop_ws_append _ hws0
    rw [hquote, hexp]
    exact jsonWsDrop_cons_not _ (by decide)
  have hmem : parseMember f (memberChars k0 vch0 ++ T) = some ((k0, v0), T) := by
    rw [hquote, hg]
    exact parseMember_of_val g k0 vch0 v0 T hvne0 hvhead0 (hval0 g T (by omega) hThead)
  have hihe := parseMembersAfter_chain B ms f (k0, v0) endWs rest hms hend (by omega)
  rw [← hT] at hihe
  rw [hquote, hexp] at hmem
  rw [hdropm, hquote, hexp]
  simp only [parseMembers, if_neg (by decide : ¬ ('"' : Char) = rbraceChar), hmem, hihe]

theorem sep_head_not_numchar (c : Char)
    (h : c = ',' ∨ wsChar c = true ∨ c = rbraceChar ∨ c = ']') :
    Char.isDigit c = false ∧ c ≠ '.' ∧ c ≠ 'e' ∧ c ≠ 'E' := by
  rcases h with rfl | hw | rfl | rfl
  · decide
  · simp only [wsChar, Bool.or_eq_true, decide_eq_true_eq] at hw
    rcases hw with ((rfl | rfl) | rfl) | rfl <;> decide
  · decide
  · decide

theorem digit_head_numval (d : Char) (hd : Char.isDigit d = true) :
    ¬ d = '"' ∧ ¬ d = lbraceChar ∧ ¬ d = '[' ∧ ¬ d = 't' ∧ ¬ d = 'f' ∧ ¬ d = 'n' := by
  refine ⟨?_, ?_, ?_, ?_, ?_, ?_⟩ <;>
    (intro h; rw [h] at hd; exact absurd hd (by decide))

theorem parseVal_printInt (f : ℕ) (i : ℤ) (r : List Char) (hf : 1 ≤ f)
    (hB : ∀ c, r.head? = some c → Char.isDigit c = false ∧ c ≠ '.' ∧ c ≠ 'e' ∧ c ≠ 'E') :
    parseVal f (printInt i ++ r) = some (.num (i : ℚ), r) := by
  obtain ⟨f', rfl⟩ : ∃ f', f = f' + 1 := ⟨f - 1, by omega⟩
  have hnum := parseJsonNumber_printInt i r hB
  by_cases hi : i < 0
  · have hp : printInt i ++ r = '-' :: (natDigits i.natAbs ++ r) := by
      simp [printInt, hi]
    rw [hp] at hnum ⊢
    simp only [parseVal, if_true, if_false, hnum,
      if_neg (by decide : ¬ ('-' : Char) = '"'),
      if_neg (by decide : ¬ ('-' : Char) = lbraceChar),
      if_neg (by decide : ¬ ('-' : Char) = '['),
      if_neg (by decide : ¬ ('-' : Char) = 't'),
      if_neg (by decide : ¬ ('-' : Char) = 'f'),
      if_neg (by decide : ¬ ('-' : Char) = 'n')]
  · obtain ⟨d, ds, hds⟩ : ∃ d ds, natDigits i.natAbs = d :: ds := by
      cases hnd : natDigits i.natAbs with
      | nil => exact absurd hnd (natDigits_ne_nil _)
      | cons d ds => exact ⟨d, ds, rfl⟩
    have hd : Char.isDigit d = true := natDigits_all_digit _ d (by rw [hds]; simp)
    obtain ⟨h1, h2, h3, h4, h5, h6⟩ := digit_head_numval d hd
    have hp : printInt i ++ r = d :: (ds ++ r) := by
      simp [printInt, hi, hds]
    rw [hp] at hnum ⊢
    simp only [parseVal, if_neg h1, if_neg h2, if_neg h3, if_neg h4, if_neg h5, if_neg h6, hnum]

theorem parseElemsAfter_chain (B : ℕ)
    (es : List ((List Char × List Char) × Json)) :
    ∀ (fuel : ℕ) (v0 : Json) (endWs rest : List Char),
      (∀ e ∈ es, (∀ c ∈ e.1.1, wsChar c = true) ∧ e.1.2 ≠ [] ∧
        (∀ c, e.1.2.head? = some c → wsChar c = false) ∧
        (∀ f r, B ≤ f →
          (∀ c, r.head? = some c → c = ',' ∨ wsChar c = true ∨ c = rbraceChar ∨ c = ']') →
          parseVal f (e.1.2 ++ r) = some (e.2, r))) →
      (∀ c ∈ endWs, wsChar c = true) →
      B + es.length + 1 ≤ fuel →
      parseElemsAfter fuel v0
        (jsonWsDrop (elemsTailChars (es.map Prod.fst) ++ (endWs ++ ']' :: rest))) =
      some (v0 :: es.map Prod.snd, rest) := by
  induction es with
  | nil =>
    intro fuel v0 endWs rest _ hend hf
    obtain ⟨f, rfl⟩ : ∃ f, fuel = f + 1 := ⟨fuel - 1, by omega⟩
    simp only [List.map_nil, elemsTailChars, List.nil_append]
    rw [jsonWsDrop_ws_append _ hend (jsonWsDrop_cons_not _ (by decide : wsChar ']' = false))]
    simp only [parseElemsAfter, if_true, if_false]
  | cons e es ih =>
    intro fuel v0 endWs rest hes hend hf
    obtain ⟨⟨ws, ech⟩, v⟩ := e
    obtain ⟨f, rfl⟩ : ∃ f, fuel = f + 1 := ⟨fuel - 1, by omega⟩
    obtain ⟨hws, hvne, hvhead, hval⟩ := hes (((ws, ech), v)) (List.mem_cons_self _ _)
    have hes' : ∀ e ∈ es, (∀ c ∈ e.1.1, wsChar c = true) ∧ e.1.2 ≠ [] ∧
        (∀ c, e.1.2.head? = some c → wsChar c = false) ∧
        (∀ f r, B ≤ f →
          (∀ c, r.head? = some c → c = ',' ∨ wsChar c = true ∨ c = rbraceChar ∨ c = ']') →
          parseVal f (e.1.2 ++ r) = some (e.2, r)) :=
      fun e he => hes e (by simp [he])
    simp only [List.map_cons, elemsTailChars, List.cons_append, List.append_assoc]
    rw [jsonWsDrop_cons_not _ (by decide : wsChar ',' = false)]
    set T := elemsTailChars (List.map Prod.fst es) ++ (endWs ++ ']' :: rest) with hT
    have hThead : ∀ c, T.head? = some c →
        c = ',' ∨ wsChar c = true ∨ c = rbraceChar ∨ c = ']' := by
      rw [hT]
      exact elemsTail_head _ _ _ hend
    have hdropv : jsonWsDrop (ws ++ (ech ++ T)) = ech ++ T := by
      apply jsonWsDrop_ws_append _ hws
      obtain ⟨c, cs, rfl⟩ : ∃ c cs, ech = c :: cs := by
        cases ech with
        | nil => exact absurd rfl hvne
        | cons c cs => exact ⟨c, cs, rfl⟩
      exact jsonWsDrop_cons_not _ (hvhead c rfl)
    have hv : parseVal f (ech ++ T) = some (v, T) :=
      hval f T (by simp at hf; omega) hThead
    have hihe := ih f v endWs rest hes' hend (by simp at hf ⊢; omega)
    rw [← hT] at hihe
    simp only [parseElemsAfter, if_true, if_false,
      if_neg (by decide : ¬ (',' : Char) = ']'), hdropv, hv, hihe, List.map_cons]

theorem parseElems_chain (B : ℕ) (ech0 : List Char) (v0 : Json)
    (es : List ((List Char × List Char) × Json))
    (fuel : ℕ) (ws0 endWs rest : List Char)
    (hws0 : ∀ c ∈ ws0, wsChar c = true)
    (hvne0 : ech0 ≠ [])
    (hvhead0 : ∀ c, ech0.head? = some c → wsChar c = false ∧ ¬ c = ']')
    (hval0 : ∀ f r, B ≤ f →
      (∀ c, r.head? = some c → c = ',' ∨ wsChar c = true ∨ c = rbraceChar ∨ c = ']') →
      parseVal f (ech0 ++ r) = some (v0, r))
    (hes : ∀ e ∈ es, (∀ c ∈ e.1.1, wsChar c = true) ∧ e.1.2 ≠ [] ∧
      (∀ c, e.1.2.head? = some c → wsChar c = false) ∧
      (∀ f r, B ≤ f →
        (∀ c, r.head? = some c → c = ',' ∨ wsChar c = true ∨ c = rbraceChar ∨ c = ']') →
        parseVal f (e.1.2 ++ r) = some (e.2, r)))
    (hend : ∀ c ∈ endWs, wsChar c = true)
    (hf : B + es.length + 2 ≤ fuel) :
    parseElems fuel
      (jsonWsDrop (ws0 ++ (ech0 ++
        (elemsTailChars (es.map Prod.fst) ++ (endWs ++ ']' :: rest))))) =
    some (v0 :: es.map Prod.snd, rest) := by
  obtain ⟨f, rfl⟩ : ∃ f, fuel = f + 1 := ⟨fuel - 1, by omega⟩
  set T := elemsTailChars (List.map Prod.fst es) ++ (endWs ++ ']' :: rest) with hT
  have hThead : ∀ c, T.head? = some c →
      c = ',' ∨ wsChar c = true ∨ c = rbraceChar ∨ c = ']' := by
    rw [hT]
    exact elemsTail_head _ _ _ hend
  obtain ⟨c, cs, rfl⟩ : ∃ c cs, ech0 = c :: cs := by
    cases ech0 with
    | nil => exact absurd rfl hvne0
    | cons c cs => exact ⟨c, cs, rfl⟩
  obtain ⟨hcw, hcne⟩ := hvhead0 c rfl
  have hdropv : jsonWsDrop (ws0 ++ ((c :: cs) ++ T)) = (c :: cs) ++ T :=
    jsonWsDrop_ws_append _ hws0 (jsonWsDrop_cons_not _ hcw)
  have hv : parseVal f ((c :: cs) ++ T) = some (v0, T) :=
    hval0 f T (by omega) hThead
  have hihe := parseElemsAfter_chain B es f v0 endWs rest hes hend (by omega)
  rw [← hT] at hihe
  simp only [List.cons_append] at hdropv hv
  simp only [List.append_assoc, ← hT, List.cons_append, hdropv]
  simp only [parseElems, if_neg hcne, hv, hihe]

theorem digit_not_ws (c : Char) (hd : Char.isDigit c = true) : wsChar c = false := by
  cases hww : wsChar c with
  | false => rfl
  | true =>
    exfalso
    simp only [wsChar, Bool.or_eq_true, decide_eq_true_eq] at hww
    rcases hww with ((h | h) | h) | h <;> (subst h; exact absurd hd (by decide))

theorem printInt_ne_nil (i : ℤ) : printInt i ≠ [] := by
  simp only [printInt]
  split_ifs
  · simp
  · exact natDigits_ne_nil _

theorem printInt_head_nonws (i : ℤ) :
    ∀ c, (printInt i).head? = some c → wsChar c = false := by
  intro c hc
  simp only [printInt] at hc
  split_ifs at hc
  · simp only [List.head?_cons, Option.some.injEq] at hc
    subst hc
    decide
  · obtain ⟨d, ds, hds⟩ : ∃ d ds, natDigits i.natAbs = d :: ds := by
      cases hnd : natDigits i.natAbs with
      | nil => exact absurd hnd (natDigits_ne_nil _)
      | cons d ds => exact ⟨d, ds, rfl⟩
    rw [hds] at hc
    simp only [List.head?_cons, Option.some.injEq] at hc
    subst hc
    exact digit_not_ws _ (natDigits_all_digit _ _ (by rw [hds]; exact List.mem_cons_self _ _))

theorem parseVal_achObj (f : ℕ) (a : Achievement) (rest : List Char) (hf : 8 ≤ f) :
    parseVal f (achObjChars a ++ rest) = some (achToJson a, rest) := by
  obtain ⟨g, rfl⟩ : ∃ g, f = g + 1 := ⟨f - 1, by omega⟩
  have hshape : achObjChars a ++ rest =
      lbraceChar :: (('\n' :: "      ".toList) ++ (memberChars "id" (printInt a.id) ++
        (membersTailChars [('\n' :: "      ".toList, "text", quoteStr a.text)] ++
          (('\n' :: "    ".toList) ++ rbraceChar :: rest)))) := by
    simp [achObjChars, List.append_assoc, List.cons_append]
  rw [hshape, show achToJson a =
    Json.obj [("id", Json.num (a.id : ℚ)), ("text", Json.str a.text)] from rfl]
  apply parseVal_lbrace
  have hchain := parseMembers_chain 1 "id" (printInt a.id) (Json.num (a.id : ℚ))
    [(('\n' :: "      ".toList, "text", quoteStr a.text), Json.str a.text)]
    g ('\n' :: "      ".toList) ('\n' :: "    ".toList) rest
    (by decide)
    (printInt_ne_nil a.id)
    (printInt_head_nonws a.id)
    (fun f r hfr hr =>
      parseVal_printInt f a.id r hfr (fun c hc => sep_head_not_numchar c (hr c hc)))
    (by
      intro m hm
      simp only [List.mem_singleton] at hm
      subst hm
      refine ⟨?_, ?_, ?_, ?_⟩
      · show ∀ c ∈ ('\n' :: "      ".toList), wsChar c = true
        decide
      · show quoteStr a.text ≠ []
        simp [quoteStr]
      · show ∀ c, (quoteStr a.text).head? = some c → wsChar c = false
        intro c hc
        simp only [quoteStr, List.head?_cons, Option.some.injEq] at hc
        subst hc
        decide
      · intro f r hfr _
        exact parseVal_quoteStr f a.text r hfr)
    (by decide)
    (by simp; omega)
  simpa using hchain

theorem parseVal_achievements (f : ℕ) (l : List Achievement) (rest : List Char)
    (hf : l.length + 10 ≤ f) :
    parseVal f (achievementsChars l ++ rest) = some (.arr (l.map achToJson), rest) := by
  obtain ⟨g, rfl⟩ : ∃ g, f = g + 1 := ⟨f - 1, by omega⟩
  cases l with
  | nil =>
    rw [show achievementsChars [] ++ rest = '[' :: (']' :: rest) from rfl]
    apply parseVal_lbrack
    rw [jsonWsDrop_cons_not _ (by decide : wsChar ']' = false)]
    obtain ⟨g', rfl⟩ : ∃ g', g = g' + 1 := ⟨g - 1, by omega⟩
    simp only [parseElems, if_pos rfl, if_true, List.map_nil]
  | cons a as =>
    have hshape : achievementsChars (a :: as) ++ rest =
        '[' :: (('\n' :: "    ".toList) ++ (achObjChars a ++
          (elemsTailChars (as.map (fun b => ('\n' :: "    ".toList, achObjChars b))) ++
            (('\n' :: "  ".toList) ++ ']' :: rest)))) := by
      simp [achievementsChars, List.append_assoc, List.cons_append]
    rw [hshape]
    apply parseVal_lbrack
    have hchain := parseElems_chain 8 (achObjChars a) (achToJson a)
      (as.map (fun b => (('\n' :: "    ".toList, achObjChars b), achToJson b)))
      g ('\n' :: "    ".toList) ('\n' :: "  ".toList) rest
      (by decide)
      (by simp [achObjChars])
      (by
        intro c hc
        rw [show (achObjChars a).head? = some lbraceChar from rfl] at hc
        simp only [Option.some.injEq] at hc
        subst hc
        exact ⟨by decide, by decide⟩)
      (fun f r hfr _ => parseVal_achObj f a r hfr)
      (by
        intro e he
        simp only [List.mem_map] at he
        obtain ⟨b, hb, rfl⟩ := he
        refine ⟨?_, ?_, ?_, ?_⟩
        · show ∀ c ∈ ('\n' :: "    ".toList), wsChar c = true
          decide
        · show achObjChars b ≠ []
          simp [achObjChars]
        · show ∀ c, (achObjChars b).head? = some c → wsChar c = false
          intro c hc
          rw [show (achObjChars b).head? = some lbraceChar from rfl] at hc
          simp only [Option.some.injEq] at hc
          subst hc
          decide
        · intro f r hfr _
          exact parseVal_achObj f b r hfr)
      (by decide)
      (by simp at hf ⊢; omega)
    simpa [List.map_map, Function.comp] using hchain

theorem strMember_ok (B : ℕ) (s : String) (ws : List Char)
    (hws : ∀ c ∈ ws, wsChar c = true) (hB : 1 ≤ B) :
    (∀ c ∈ ws, wsChar c = true) ∧ quoteStr s ≠ [] ∧
    (∀ c, (quoteStr s).head? = some c → wsChar c = false) ∧
    (∀ f r, B ≤ f →
      (∀ c, r.head? = some c → c = ',' ∨ wsChar c = true ∨ c = rbraceChar ∨ c = ']') →
      parseVal f (quoteStr s ++ r) = some (Json.str s, r)) := by
  refine ⟨hws, by simp [quoteStr], ?_, ?_⟩
  · intro c hc
    rw [show (quoteStr s).head? = some '"' from rfl] at hc
    simp only [Option.some.injEq] at hc
    subst hc
    decide
  · intro f r hfr _
    exact parseVal_quoteStr f s r (by omega)

theorem achievementsChars_head (l : List Achievement) :
    (achievementsChars l).head? = some '[' := by
  cases l <;> rfl

theorem achievementsChars_ne_nil (l : List Achievement) : achievementsChars l ≠ [] := by
  cases l <;> simp [achievementsChars]

theorem parseVal_stringifyProfile (f : ℕ) (p : Profile) (rest : List Char)
    (hf : p.achievements.length + 31 ≤ f) :
    parseVal f (stringifyProfileChars p ++ rest) = some (profileToJson p, rest) := by
  obtain ⟨g, rfl⟩ : ∃ g, f = g + 1 := ⟨f - 1, by omega⟩
  have hshape : stringifyProfileChars p ++ rest =
      lbraceChar :: (('\n' :: "  ".toList) ++ (memberChars "name" (quoteStr p.name) ++
        (membersTailChars
          [ ('\n' :: "  ".toList, "email", quoteStr p.email),
            ('\n' :: "  ".toList, "phone", quoteStr p.phone),
            ('\n' :: "  ".toList, "position", quoteStr p.position),
            ('\n' :: "  ".toList, "height", quoteStr p.height),
            ('\n' :: "  ".toList, "weight", quoteStr p.weight),
            ('\n' :: "  ".toList, "gpa", quoteStr p.gpa),
            ('\n' :: "  ".toList, "testScores", quoteStr p.testScores),
            ('\n' :: "  ".toList, "achievements", achievementsChars p.achievements) ] ++
          (['\n'] ++ rbraceChar :: rest)))) := by
    simp [stringifyProfileChars, List.append_assoc, List.cons_append]
  rw [hshape, show profileToJson p =
    Json.obj [("name", .str p.name), ("email", .str p.email), ("phone", .str p.phone),
      ("position", .str p.position), ("height", .str p.height), ("weight", .str p.weight),
      ("gpa", .str p.gpa), ("testScores", .str p.testScores),
      ("achievements", .arr (p.achievements.map achToJson))] from rfl]
  apply parseVal_lbrace
  have hchain := parseMembers_chain (p.achievements.length + 10) "name" (quoteStr p.name)
    (Json.str p.name)
    [ (('\n' :: "  ".toList, "email", quoteStr p.email), Json.str p.email),
      (('\n' :: "  ".toList, "phone", quoteStr p.phone), Json.str p.phone),
      (('\n' :: "  ".toList, "position", quoteStr p.position), Json.str p.position),
      (('\n' :: "  ".toList, "height", quoteStr p.height), Json.str p.height),
      (('\n' :: "  ".toList, "weight", quoteStr p.weight), Json.str p.weight),
      (('\n' :: "  ".toList, "gpa", quoteStr p.gpa), Json.str p.gpa),
      (('\n' :: "  ".toList, "testScores", quoteStr p.testScores), Json.str p.testScores),
      (('\n' :: "  ".toList, "achievements", achievementsChars p.achievements),
        Json.arr (p.achievements.map achToJson)) ]
    g ('\n' :: "  ".toList) ['\n'] rest
    (by decide)
    (by simp [quoteStr])
    (by
      intro c hc
      rw [show (quoteStr p.name).head? = some '"' from rfl] at hc
      simp only [Option.some.injEq] at hc
      subst hc
      decide)
    (fun f r hfr _ => parseVal_quoteStr f p.name r (by omega))
    (by
      intro m hm
      simp only [List.mem_cons, List.not_mem_nil, or_false] at hm
      rcases hm with rfl | rfl | rfl | rfl | rfl | rfl | rfl | rfl
      · exact strMember_ok _ p.email ('\n' :: "  ".toList) (by decide) (by omega)
      · exact strMember_ok _ p.phone ('\n' :: "  ".toList) (by decide) (by omega)
      · exact strMember_ok _ p.position ('\n' :: "  ".toList) (by decide) (by omega)
      · exact strMember_ok _ p.height ('\n' :: "  ".toList) (by decide) (by omega)
      · exact strMember_ok _ p.weight ('\n' :: "  ".toList) (by decide) (by omega)
      · exact strMember_ok _ p.gpa ('\n' :: "  ".toList) (by decide) (by omega)
      · exact strMember_ok _ p.testScores ('\n' :: "  ".toList) (by decide) (by omega)
      · refine ⟨?_, ?_, ?_, ?_⟩
        · show ∀ c ∈ ('\n' :: "  ".toList), wsChar c = true
          decide
        · show achievementsChars p.achievements ≠ []
          exact achievementsChars_ne_nil _
        · show ∀ c, (achievementsChars p.achievements).head? = some c → wsChar c = false
          intro c hc
          rw [achievementsChars_head] at hc
          simp only [Option.some.injEq] at hc
          subst hc
          decide
        · intro f r hfr _
          exact parseVal_achievements f p.achievements r (by omega))
    (by decide)
    (by simp at hf ⊢; omega)
  simpa using hchain

theorem elemsTailChars_length_ge (es : List (List Char × List Char)) :
    es.length ≤ (elemsTailChars es).length := by
  induction es with
  | nil => simp [elemsTailChars]
  | cons e l ih =>
    obtain ⟨ws, ech⟩ := e
    simp only [elemsTailChars, List.length_cons, List.length_append]
    omega

theorem achievementsChars_length (l : List Achievement) :
    l.length + 2 ≤ (achievementsChars l).length := by
  cases l with
  | nil => simp [achievementsChars]
  | cons a as =>
    have h1 := elemsTailChars_length_ge
      (as.map (fun b => ('\n' :: "    ".toList, achObjChars b)))
    simp only [List.length_map] at h1
    simp only [achievementsChars, List.length_cons, List.length_append]
    omega

theorem stringifyProfileChars_length (p : Profile) :
    p.achievements.length + 31 ≤ (stringifyProfileChars p).length + 1 := by
  have ha := achievementsChars_length p.achievements
  have h1 := escapeChars_length p.name.toList
  simp only [stringifyProfileChars, membersTailChars, memberChars, quoteStr,
    List.length_cons, List.length_append]
  simp
  omega

theorem jsonParse_downloadProfile (p : Profile) :
    jsonParse (downloadProfile p) = some (profileToJson p) := by
  have hlist : (downloadProfile p).toList = stringifyProfileChars p := rfl
  have hdrop : jsonWsDrop (stringifyProfileChars p) = stringifyProfileChars p :=
    jsonWsDrop_cons_not _ (by decide)
  have hval := parseVal_stringifyProfile ((stringifyProfileChars p).length + 1) p []
    (by have := stringifyProfileChars_length p; omega)
  rw [List.append_nil] at hval
  simp only [jsonParse, hlist, hdrop, hval]
  simp [jsonWsDrop]

theorem decodeAch_achToJson (a : Achievement) : decodeAch (achToJson a) = some a := by
  simp [decodeAch, achToJson, jLookup, asInt, asString, Rat.den_intCast, Rat.num_intCast]

theorem mapM_loop_decodeAch (l : List Achievement) :
    ∀ acc : List Achievement,
      List.mapM.loop decodeAch (l.map achToJson) acc = some (acc.reverse ++ l) := by
  induction l with
  | nil => intro acc; simp [List.mapM.loop]
  | cons a as ih =>
    intro acc
    simp [List.mapM.loop, decodeAch_achToJson a, ih]

theorem mapM_decodeAch (l : List Achievement) :
    (l.map achToJson).mapM decodeAch = some l := by
  simpa [List.mapM] using mapM_loop_decodeAch l []

theorem decodeProfile_profileToJson (p : Profile) :
    decodeProfile (profileToJson p) = some p := by
  simp [decodeProfile, profileToJson, jLookup, asString, mapM_loop_decodeAch]

/-- C7: the export/import round trip.  For every profile `p`, the exported
payload `downloadProfile p` parses back successfully (`jsonParse` yields
exactly `profileToJson p`), the profile decoded from the payload equals `p`
in all fields including the achievements sequence (`importedProfile`), and
running `importProfile` on the payload in any app state replaces the stored
profile by `p` and reports no error. -/
theorem claim_C7 :
    ∀ p : Profile,
      jsonParse (downloadProfile p) = some (profileToJson p) ∧
      importedProfile (downloadProfile p) = some p ∧
      ∀ s : AppState, importProfile (downloadProfile p) s =
        ({ s with profile := p }, false) := by
  intro p
  refine ⟨jsonParse_downloadProfile p, ?_, ?_⟩
  · simp [importedProfile, jsonParse_downloadProfile p, decodeProfile_profileToJson p]
  · intro s
    simp [importProfile, jsonParse_downloadProfile p, decodeProfile_profileToJson p]
